import Mathlib

/-
Verification development for the Meta-League evolution engine:
a shallow embedding of the Hilbert-space kernel (hilbert.ts), the
objective algebra (objectives.ts), the NSGA-II selector (nsga2.ts),
the agent runtime (agent.ts), the proof gate (proof-gate.ts) and the
generational driver (evolution.ts), together with proofs about the
specified behaviour of each operation.

Modelling conventions, used throughout:
- JavaScript double-precision numbers are modelled by an arbitrary
  linear ordered field `K` (instantiated at `ℝ` for the analytic
  facts and at `ℚ` where concrete evaluation is needed); `Math.sqrt`
  is threaded through as an explicit function parameter `sq`, set to
  `Real.sqrt` when the field is `ℝ`.
- `Math.random()` and `Date.now()` are environment inputs; they are
  modelled by explicit oracle streams passed to the functions that
  read them.
- A thrown JavaScript exception is modelled by `Except String`.
- A JavaScript `Map` whose reads all use the `?? 0` default is
  modelled by a total function defaulting to `0`.
-/

set_option maxHeartbeats 1000000

namespace MetaLeague

section Hilbert

variable {K : Type} [LinearOrderedField K]

/-- Complex scalar: an ordered pair of numbers, as in hilbert.ts. -/
structure Complex (K : Type) where
  re : K
  im : K
deriving DecidableEq

/-- A learning state in Hilbert space (hilbert.ts `HilbertState`). -/
abbrev HilbertState (K : Type) : Type := List (Complex K)

/-- The literal `1e-12` from `normalize`. -/
def eps12 : K := 1 / 10 ^ 12

/-- hilbert.ts `zeroState`: a zero state of the given dimension. -/
def zeroState (dim : ℕ) : HilbertState K :=
  List.replicate dim ⟨0, 0⟩

/-- hilbert.ts `normSquared`: the source's `reduce` over the components. -/
def normSquared (state : HilbertState K) : K :=
  state.foldl (fun sum z => sum + (z.re * z.re + z.im * z.im)) 0

/-- hilbert.ts `norm`; `Math.sqrt` is the parameter `sq`. -/
def norm (sq : K → K) (state : HilbertState K) : K :=
  sq (normSquared state)

/-- hilbert.ts `normalize`: zero state below the `1e-12` cutoff,
componentwise division by the norm otherwise.  (The source computes
the norm once into a local; the repeated `norm sq state` here denotes
that same value.) -/
def normalize (sq : K → K) (state : HilbertState K) : HilbertState K :=
  if norm sq state < eps12 then zeroState state.length
  else state.map (fun z => ⟨z.re / norm sq state, z.im / norm sq state⟩)

/-- hilbert.ts `innerProduct`: throws on unequal dimensions; the
source's index loop over equal-length inputs is rendered with `zip`. -/
def innerProduct (a b : HilbertState K) : Except String (Complex K) :=
  if a.length ≠ b.length then .error "States must have same dimension"
  else .ok
    ⟨((a.zip b).map (fun p => p.1.re * p.2.re + p.1.im * p.2.im)).sum,
     ((a.zip b).map (fun p => p.1.re * p.2.im - p.1.im * p.2.re)).sum⟩

/-- hilbert.ts `stateDistance`: throws on unequal dimensions, else the
norm of the componentwise difference. -/
def stateDistance (sq : K → K) (a b : HilbertState K) : Except String K :=
  if a.length ≠ b.length then .error "States must have same dimension"
  else .ok (norm sq ((a.zip b).map (fun p => ⟨p.1.re - p.2.re, p.1.im - p.2.im⟩)))

/-- hilbert.ts `privacyProjection`: `Math.random()` is modelled by the
stream `noise`, giving the pair of draws for each component index.
When `targetDim ≥ |state|` every component is perturbed; otherwise only
the first `targetDim` components are kept (the source's `slice`). -/
def privacyProjection (noise : ℕ → K × K) (state : HilbertState K)
    (targetDim : ℕ) (noiseScale : K) : HilbertState K :=
  if state.length ≤ targetDim then
    state.enum.map (fun iz =>
      ⟨iz.2.re + ((noise iz.1).1 - 1 / 2) * 2 * noiseScale,
       iz.2.im + ((noise iz.1).2 - 1 / 2) * 2 * noiseScale⟩)
  else
    (state.take targetDim).enum.map (fun iz =>
      ⟨iz.2.re + ((noise iz.1).1 - 1 / 2) * 2 * noiseScale,
       iz.2.im + ((noise iz.1).2 - 1 / 2) * 2 * noiseScale⟩)

/-- The consensus average computed inside hilbert.ts `spectralSync`:
componentwise sum over all inputs of the first `dim` components,
divided by the number of inputs.  The source reads `state[i]` for
`i < dim` from every input; components of longer inputs beyond `dim`
are never read.  (`getD` never hits its default when every input has
length at least `dim`; `spectralSync` checks exactly that.) -/
def consensusAvg : List (HilbertState K) → HilbertState K
  | [] => []
  | s0 :: rest =>
    (List.range s0.length).map (fun i =>
      ⟨((s0 :: rest).map (fun s => (s.getD i ⟨0, 0⟩).re)).sum / (((s0 :: rest).length : ℕ) : K),
       ((s0 :: rest).map (fun s => (s.getD i ⟨0, 0⟩).im)).sum / (((s0 :: rest).length : ℕ) : K)⟩)

/-- The total core of hilbert.ts `spectralSync`: consensus average then
normalise.  Defined whenever no input is shorter than the first. -/
def spectralSyncT (sq : K → K) : List (HilbertState K) → HilbertState K
  | [] => []
  | s0 :: rest => normalize sq (consensusAvg (s0 :: rest))

/-- hilbert.ts `spectralSync`.  The source performs no dimension
check: it reads components `0 … dim-1` (with `dim` the first input's
length) of every input.  Reading past the end of a shorter input is a
JavaScript `TypeError` (modelled as the error case); longer inputs are
silently truncated to `dim` components. -/
def spectralSync (sq : K → K) : List (HilbertState K) → Except String (HilbertState K)
  | [] => .ok []
  | s0 :: rest =>
    if (s0 :: rest).all (fun s => decide (s0.length ≤ s.length)) then
      .ok (spectralSyncT sq (s0 :: rest))
    else .error "TypeError: state component is undefined"

/-- hilbert.ts `learningEnergy`: deviation of the norm from 1 plus a
tenth of the variance of the component magnitudes.  (On the empty
state the source divides 0 by 0, giving NaN; in the field model this
division yields 0.  No claim depends on that value.) -/
def learningEnergy (sq : K → K) (state : HilbertState K) : K :=
  let n := norm sq state
  let normDeviation := |n - 1|
  let mags := state.map (fun z => sq (z.re * z.re + z.im * z.im))
  let len : K := (mags.length : ℕ)
  let avgMag := mags.sum / len
  let variance := (mags.map (fun m => (m - avgMag) ^ 2)).sum / len
  normDeviation + (1 / 10) * variance

end Hilbert

section Objectives

/-- objectives.ts `ObjectiveSense`: direction of one objective axis. -/
inductive ObjectiveSense
  | max
  | min
deriving DecidableEq

/-- objectives.ts `ObjectiveSpec`: one scored axis. -/
structure ObjectiveSpec where
  name : String
  sense : ObjectiveSense
  weight : Option ℚ := none
deriving DecidableEq

/-- objectives.ts `ObjectiveVector`: objective values with a wall-clock
timestamp.  The double-precision values are modelled in `ℚ`. -/
structure ObjectiveVector where
  values : List ℚ
  timestamp : ℕ
deriving DecidableEq

/-- objectives.ts `DEFAULT_OBJECTIVES`. -/
def DEFAULT_OBJECTIVES : List ObjectiveSpec :=
  [⟨"gain", .max, none⟩, ⟨"latency", .min, none⟩, ⟨"engagement", .max, none⟩,
   ⟨"fairness", .max, none⟩, ⟨"privacyLoss", .min, none⟩, ⟨"cost", .min, none⟩]

/-- objectives.ts `noWorse`: `a ≥ b` under `max`, `a ≤ b` under `min`. -/
def noWorse (a b : ℚ) (sense : ObjectiveSense) : Bool :=
  match sense with
  | .max => decide (a ≥ b)
  | .min => decide (a ≤ b)

/-- objectives.ts `strictlyBetter`: strict version of `noWorse`. -/
def strictlyBetter (a b : ℚ) (sense : ObjectiveSense) : Bool :=
  match sense with
  | .max => decide (a > b)
  | .min => decide (a < b)

end Objectives

section Nsga2

variable {π : Type}

/-- nsga2.ts `Genome`: id, objective vector, writable `rank` and
`crowding` slots (absent before the sort writes them), and the
additional payload admitted by the source's index signature.
`crowding` lives in `WithTop ℚ` because the source stores `Infinity`
in it. -/
structure Genome (π : Type) where
  id : String
  objectives : ObjectiveVector
  rank : Option ℕ := none
  crowding : Option (WithTop ℚ) := none
  payload : π
deriving DecidableEq

/-- Objective value of a genome at axis `i` (the source's
`g.objectives.values[i]`; in every use below the index is guarded by
the vector length, so the default is never read). -/
def objAt (g : Genome π) (i : ℕ) : ℚ :=
  g.objectives.values.getD i 0

/-- The body of nsga2.ts `dominates`, run after its length guard: the
source's single loop returns `false` as soon as one axis is not
`noWorse`, and otherwise reports whether some axis was
`strictlyBetter`; that is the conjunction below. -/
def dominatesT (specs : List ObjectiveSpec) (a b : Genome π) : Bool :=
  (List.range specs.length).all
      (fun i => noWorse (objAt a i) (objAt b i) ((specs.getD i ⟨"", .max, none⟩).sense)) &&
    (List.range specs.length).any
      (fun i => strictlyBetter (objAt a i) (objAt b i) ((specs.getD i ⟨"", .max, none⟩).sense))

/-- nsga2.ts `dominates` including its length guard, which throws when
either objective vector disagrees with the axis count. -/
def dominates (a b : Genome π) (specs : List ObjectiveSpec) : Except String Bool :=
  if a.objectives.values.length ≠ specs.length ∨
      b.objectives.values.length ≠ specs.length then
    .error "Objective vector length must match specs"
  else .ok (dominatesT specs a b)

/-- Copy of a genome with its `rank` slot written (the source mutates
`p.rank` in place). -/
def setRank (g : Genome π) (r : ℕ) : Genome π :=
  { g with rank := some r }

/-- The list `S(p)` built by the first loop of
`fastNonDominatedSort`: the genomes of the population (in population
order) that `p` dominates, skipping the entry with `p`'s own id. -/
def Sof (specs : List ObjectiveSpec) (pop : List (Genome π)) (p : Genome π) :
    List (Genome π) :=
  pop.filter (fun q => !(p.id == q.id) && dominatesT specs p q)

/-- The counter `n(p)` built by the first loop of
`fastNonDominatedSort`: the number of population entries `q` (with an
id different from `p`'s) for which the loop's `else if` branch fires,
i.e. `p` does not dominate `q` but `q` dominates `p`. -/
def nCount (specs : List ObjectiveSpec) (pop : List (Genome π)) (p : Genome π) : ℕ :=
  (pop.filter (fun q =>
    !(p.id == q.id) && !(dominatesT specs p q) && dominatesT specs q p)).length

/-- Front 0 of `fastNonDominatedSort`: the population entries whose
domination counter is zero, in population order, with `rank := 0`
written. -/
def front0 (specs : List ObjectiveSpec) (pop : List (Genome π)) : List (Genome π) :=
  (pop.filter (fun p => nCount specs pop p == 0)).map (fun p => setRank p 0)

/-- The counter map `n` after the first loop, keyed by id.  Ids are
distinct in every claim about the sort, so the id's entry holds the
`nCount` of the population member carrying that id (0 for unknown
ids, which are never queried). -/
def initCnt (specs : List ObjectiveSpec) (pop : List (Genome π)) : String → ℤ :=
  fun s => match pop.find? (fun p => p.id == s) with
  | some p => (nCount specs pop p : ℤ)
  | none => 0

/-- One step of the inner loop building the next front: decrement
`n(q)`; if the counter just reached zero, append `q` with
`rank := i + 1` to the front under construction. -/
def stepQ (i : ℕ) (st : (String → ℤ) × List (Genome π)) (q : Genome π) :
    (String → ℤ) × List (Genome π) :=
  let c := st.1 q.id - 1
  let cnt := fun s => if s = q.id then c else st.1 s
  if c = 0 then (cnt, st.2 ++ [setRank q (i + 1)]) else (cnt, st.2)

/-- The body of the while loop of `fastNonDominatedSort` at front `i`:
for every member `p` of the current front, walk `S(p)` decrementing
counters and collecting the genomes whose counter reaches zero. -/
def buildNext (specs : List ObjectiveSpec) (pop : List (Genome π)) (i : ℕ)
    (cnt : String → ℤ) (front : List (Genome π)) :
    (String → ℤ) × List (Genome π) :=
  front.foldl (fun st p => (Sof specs pop p).foldl (stepQ i) st) (cnt, [])

/-- The while loop of `fastNonDominatedSort`: emit the current front
and continue on the freshly built one until a front comes out empty.
`fuel` bounds the iteration count; `fastNonDominatedSort` passes
`|population| + 1`, which the accompanying theorems show is never
exhausted (every iteration places at least one genome). -/
def sortLoop (specs : List ObjectiveSpec) (pop : List (Genome π)) :
    ℕ → (String → ℤ) → List (Genome π) → ℕ → List (List (Genome π))
  | 0, _, _, _ => []
  | fuel + 1, cnt, current, i =>
    if current.isEmpty then []
    else
      let next := buildNext specs pop i cnt current
      current :: sortLoop specs pop fuel next.1 next.2 (i + 1)

/-- nsga2.ts `fastNonDominatedSort`.  Empty fronts are never emitted,
matching the source's construction and final `filter`. -/
def fastNonDominatedSort (pop : List (Genome π)) (specs : List ObjectiveSpec) :
    List (List (Genome π)) :=
  sortLoop specs pop (pop.length + 1) (initCnt specs pop) (front0 specs pop) 0

/-- Pointwise update of a counter / distance map (JavaScript
`Map.set`; reads of the maps modelled this way all carry a `?? 0`
default in the source, hence the total function defaulting to 0). -/
def updMap (m : String → WithTop ℚ) (k : String) (v : WithTop ℚ) :
    String → WithTop ℚ :=
  fun s => if s = k then v else m s

/-- The literal `1e-10` guarding the crowding range. -/
def eps10 : ℚ := 1 / 10 ^ 10

/-- The per-axis comparator of `crowdingDistance`: JavaScript's stable
`sort` with comparator `sense === 'max' ? bv - av : av - bv` is the
stable merge sort under this relation (descending on a `max` axis,
ascending on a `min` axis). -/
def axisLe (m : ℕ) (sense : ObjectiveSense) (a b : Genome π) : Bool :=
  match sense with
  | .max => decide (objAt b m ≤ objAt a m)
  | .min => decide (objAt a m ≤ objAt b m)

/-- One iteration of the objective loop of nsga2.ts
`crowdingDistance`: sort the front by axis `m`, give the two boundary
entries infinite distance, and, unless the axis range is below
`1e-10`, add the normalised neighbour gap to every interior entry. -/
def axisPass (front : List (Genome π)) (m : ℕ) (sense : ObjectiveSense)
    (dist : String → WithTop ℚ) : String → WithTop ℚ :=
  match front.mergeSort (axisLe m sense) with
  | [] => dist
  | s0 :: rest =>
    let sorted := s0 :: rest
    let dLast := (sorted.getLast (List.cons_ne_nil s0 rest)).id
    let d2 := updMap (updMap dist s0.id ⊤) dLast ⊤
    let minVal := objAt (sorted.getLast (List.cons_ne_nil s0 rest)) m
    let maxVal := objAt s0 m
    let range := maxVal - minVal
    if range < eps10 then d2
    else
      (List.range sorted.length).foldl (fun d i =>
        if i = 0 ∨ i = sorted.length - 1 then d
        else
          let prev := objAt (sorted.getD (i - 1) s0) m
          let next := objAt (sorted.getD (i + 1) s0) m
          updMap d (sorted.getD i s0).id
            (d (sorted.getD i s0).id + ((|next - prev| / range : ℚ) : WithTop ℚ))) d2

/-- nsga2.ts `crowdingDistance`: returns the distance map and the
front with the `crowding` slots written (the source mutates the
genomes in place and returns the map). -/
def crowdingDistance (front : List (Genome π)) (specs : List ObjectiveSpec) :
    (String → WithTop ℚ) × List (Genome π) :=
  if front.length = 0 then (fun _ => 0, front)
  else
    let d0 := front.foldl (fun d g => updMap d g.id 0) (fun _ => 0)
    if front.length ≤ 2 then
      (front.foldl (fun d g => updMap d g.id ⊤) d0,
       front.map (fun g => { g with crowding := some ⊤ }))
    else
      let d := specs.enum.foldl (fun d ms => axisPass front ms.1 ms.2.sense d) d0
      (d, front.map (fun g => { g with crowding := some (d g.id) }))

/-- nsga2.ts `tournamentSelect`: the two uniform draws
`Math.floor(Math.random() * length)` are supplied by the oracle as
`i % length` and `j % length`; lower rank wins, then higher crowding,
then the first draw.  `dflt` is never read on a non-empty population. -/
def tournamentSelect (pop : List (Genome π)) (dflt : Genome π) (i j : ℕ) : Genome π :=
  let a := pop.getD (i % pop.length) dflt
  let b := pop.getD (j % pop.length) dflt
  let rankA : WithTop ℕ := match a.rank with | some r => (r : WithTop ℕ) | none => ⊤
  let rankB : WithTop ℕ := match b.rank with | some r => (r : WithTop ℕ) | none => ⊤
  if rankA < rankB then a
  else if rankB < rankA then b
  else if (a.crowding.getD 0) ≥ (b.crowding.getD 0) then a
  else b

/-- The crowding comparator of nsga2.ts `nsga2Select`: JavaScript's
stable `sort((a, b) => (b.crowding ?? 0) - (a.crowding ?? 0))`
(descending by crowding; the `Infinity - Infinity = NaN` comparator
result is treated as 0 by `sort`, i.e. two infinite entries compare
equal, which is exactly `≤` on `WithTop ℚ`). -/
def crowdLe (a b : Genome π) : Bool :=
  decide ((b.crowding.getD 0) ≤ (a.crowding.getD 0))

/-- The selection walk of nsga2.ts `nsga2Select`: take whole fronts
while they fit; at the first front that does not fit, sort it by
descending crowding, take the remaining quota and stop. -/
def selectWalk (targetSize : ℕ) :
    List (List (Genome π)) → List (Genome π) → List (Genome π)
  | [], selected => selected
  | f :: rest, selected =>
    if selected.length + f.length ≤ targetSize then
      selectWalk targetSize rest (selected ++ f)
    else
      selected ++ (f.mergeSort crowdLe).take (targetSize - selected.length)

/-- nsga2.ts `nsga2Select`: non-dominated sort, crowding on every
front, then the selection walk. -/
def nsga2Select (pop : List (Genome π)) (specs : List ObjectiveSpec)
    (targetSize : ℕ) : List (Genome π) :=
  let fronts := fastNonDominatedSort pop specs
  let cfronts := fronts.map (fun f => (crowdingDistance f specs).2)
  selectWalk targetSize cfronts []

end Nsga2

section AgentRuntime

/-- agent.ts `AgentKind`. -/
inductive AgentKind
  | student
  | tutor
  | curriculumDesigner
  | pedagogyTheorist
  | theoremProver
  | metaDesigner
deriving DecidableEq

/-- agent.ts `SymbolicItem`: fact, rule or plan. -/
inductive SymbolicItem
  | fact (content : String)
  | rule (condition action : String)
  | plan (steps : List String) (goal : String)
deriving DecidableEq

/-- agent.ts `Tool`. -/
structure Tool where
  name : String
  cost : ℚ
  preconditions : Option (List String) := none
  effects : Option (List String) := none
deriving DecidableEq

/-- agent.ts `MemoryEntry`; the `unknown` value payload is opaque to
the core and modelled as a string. -/
structure MemoryEntry where
  key : String
  value : String
  timestamp : ℕ
  ttl : Option ℕ := none
deriving DecidableEq

/-- agent.ts `Perception`.  Driver states live over `ℚ`. -/
structure Perception where
  state : HilbertState ℚ
  uncertainty : ℚ
  provenance : List String
  timestamp : ℕ
deriving DecidableEq

/-- agent.ts `Reasoning`. -/
structure Reasoning where
  knowledge : List SymbolicItem
  goals : List String
  activePlan : Option SymbolicItem := none
deriving DecidableEq

/-- agent.ts `Coordination`. -/
structure Coordination where
  tools : List Tool
  memory : List MemoryEntry
  decisions : List String
  partners : List String
deriving DecidableEq

/-- proof-gate.ts `CheckResult`.  The purely diagnostic
`message` string (a number-interpolating human-readable sentence) is
omitted from the model; no claim concerns it. -/
structure CheckResult where
  name : String
  passed : Bool
  value : Option ℚ := none
  threshold : Option ℚ := none
deriving DecidableEq

/-- agent.ts `ProofBundle`.  The source stores
`JSON.stringify(result.checks)` in `proof`; the serialisation is
modelled by the check list itself. -/
structure ProofBundle where
  spec : String
  proof : List CheckResult
  verified : Bool
  timestamp : ℕ
deriving DecidableEq

/-- agent.ts `MetaAgent`: the complete tri-layer organism.  The
`metadata` record of opaque blobs is modelled as a string association
list. -/
structure MetaAgent where
  id : String
  kind : AgentKind
  generation : ℕ
  perception : Perception
  reasoning : Reasoning
  coordination : Coordination
  objectives : ObjectiveVector
  proof : Option ProofBundle := none
  lineage : List String
  metadata : List (String × String)
deriving DecidableEq

/-- agent.ts `createAgent`: default zero state of the requested
dimension, six zero objective values, lineage `["genesis"]`.
`Date.now()` is the parameter `now`. -/
def createAgent (id : String) (kind : AgentKind) (stateDim : ℕ) (now : ℕ) : MetaAgent :=
  { id := id
    kind := kind
    generation := 0
    perception :=
      { state := List.replicate stateDim ⟨0, 0⟩
        uncertainty := 1
        provenance := ["init"]
        timestamp := now }
    reasoning := { knowledge := [], goals := [] }
    coordination := { tools := [], memory := [], decisions := [], partners := [] }
    objectives := { values := [0, 0, 0, 0, 0, 0], timestamp := now }
    lineage := ["genesis"]
    metadata := [] }

/-- agent.ts `cloneAgent`: fresh id (or `<id>-clone`), provenance
extended with `clone`, lineage extended with the source id.  The
source's array copies are identities under value semantics. -/
def cloneAgent (agent : MetaAgent) (newId : Option String) : MetaAgent :=
  { agent with
    id := newId.getD (agent.id ++ "-clone")
    perception :=
      { agent.perception with provenance := agent.perception.provenance ++ ["clone"] }
    lineage := agent.lineage ++ ["clone-from:" ++ agent.id] }

/-- agent.ts `updatePerception`: replace the state, append to
provenance, stamp the time. -/
def updatePerception (agent : MetaAgent) (newState : HilbertState ℚ)
    (provenance : String) (now : ℕ) : MetaAgent :=
  { agent with
    perception :=
      { agent.perception with
        state := newState
        provenance := agent.perception.provenance ++ [provenance]
        timestamp := now } }

end AgentRuntime

section ProofGate

/-- objectives.ts `Law`: named threshold invariant with a pure
evaluator. -/
structure Law where
  name : String
  evaluate : MetaAgent → ℚ
  sense : ObjectiveSense
  threshold : Option ℚ := none

/-- objectives.ts `satisfiesLaw`: unconditionally true without a
threshold, else `≥` under `max` and `≤` under `min`. -/
def satisfiesLaw (law : Law) (value : ℚ) : Bool :=
  match law.threshold with
  | none => true
  | some t =>
    match law.sense with
    | .max => decide (value ≥ t)
    | .min => decide (value ≤ t)

/-- proof-gate.ts `VerificationResult`. -/
structure VerificationResult where
  passed : Bool
  reason : Option String := none
  timestamp : ℕ
  checks : List CheckResult
deriving DecidableEq

/-- proof-gate.ts `ProofGateConfig`. -/
structure ProofGateConfig where
  laws : List Law
  maxPrivacyLoss : ℚ
  maxCost : ℚ
  requireStability : Bool
  stabilityEpsilon : ℚ

/-- proof-gate.ts `verifyAgent`: the canonical check order is the
declared laws, `privacy-loss`, `cost`, `stability` (only when
required), `tool-budget`; the overall flag is the conjunction.  The
objective reads `values[4]` / `values[5]` are `get?`: on a vector
shorter than the source's fixed six entries, the JavaScript
comparison against `undefined` is false, modelled by the `none`
branches.  The randomised `isStable` probe is the oracle `stab`;
`Date.now()` is `now`. -/
def verifyAgent (sq : ℚ → ℚ) (stab : MetaAgent → Bool) (now : ℕ)
    (config : ProofGateConfig) (agent : MetaAgent) : VerificationResult :=
  let lawChecks := config.laws.map (fun law =>
    let value := law.evaluate agent
    ({ name := law.name, passed := satisfiesLaw law value,
       value := some value, threshold := law.threshold } : CheckResult))
  let privacyLoss := agent.objectives.values.get? 4
  let privacyPassed := match privacyLoss with
    | some v => decide (v ≤ config.maxPrivacyLoss)
    | none => false
  let privacyCheck : CheckResult :=
    { name := "privacy-loss", passed := privacyPassed,
      value := privacyLoss, threshold := some config.maxPrivacyLoss }
  let cost := agent.objectives.values.get? 5
  let costPassed := match cost with
    | some v => decide (v ≤ config.maxCost)
    | none => false
  let costCheck : CheckResult :=
    { name := "cost", passed := costPassed,
      value := cost, threshold := some config.maxCost }
  let stable := stab agent
  let stabilityChecks : List CheckResult :=
    if config.requireStability then
      [{ name := "stability", passed := stable,
         value := some (learningEnergy sq agent.perception.state) }]
    else []
  let toolCost := (agent.coordination.tools.map (fun t => t.cost)).sum
  let toolBudgetPassed := decide (toolCost ≤ config.maxCost * 0.5)
  let toolCheck : CheckResult :=
    { name := "tool-budget", passed := toolBudgetPassed,
      value := some toolCost, threshold := some (config.maxCost * 0.5) }
  { passed := lawChecks.all (fun c => c.passed) && privacyPassed && costPassed &&
      (!config.requireStability || stable) && toolBudgetPassed
    reason := some (if lawChecks.all (fun c => c.passed) && privacyPassed && costPassed &&
      (!config.requireStability || stable) && toolBudgetPassed
      then "All checks passed" else "Some checks failed")
    timestamp := now
    checks := lawChecks ++ [privacyCheck, costCheck] ++ stabilityChecks ++ [toolCheck] }

/-- Result record of proof-gate.ts `applyProofGate`. -/
structure GateResult where
  passed : List MetaAgent
  failed : List MetaAgent
  results : List (String × VerificationResult)
deriving DecidableEq

/-- The one-line spec summary attached by `applyProofGate`. -/
def specSummary (numLaws : ℕ) : String :=
  "Verified against " ++ toString numLaws ++ " laws + privacy/cost/stability"

/-- The proof bundle `applyProofGate` writes onto a passing agent. -/
def attachProof (config : ProofGateConfig) (agent : MetaAgent)
    (result : VerificationResult) : MetaAgent :=
  { agent with
    proof := some
      { spec := specSummary config.laws.length
        proof := result.checks
        verified := true
        timestamp := result.timestamp } }

/-- proof-gate.ts `applyProofGate`: verify each agent in order;
passing agents get the proof bundle attached and go to `passed`,
failing agents go to `failed` untouched, and every verification
result is recorded against the agent's id. -/
def applyProofGate (sq : ℚ → ℚ) (stab : MetaAgent → Bool) (now : ℕ)
    (config : ProofGateConfig) : List MetaAgent → GateResult
  | [] => { passed := [], failed := [], results := [] }
  | agent :: rest =>
    let result := verifyAgent sq stab now config agent
    let r := applyProofGate sq stab now config rest
    if result.passed then
      { passed := attachProof config agent result :: r.passed
        failed := r.failed
        results := (agent.id, result) :: r.results }
    else
      { passed := r.passed
        failed := agent :: r.failed
        results := (agent.id, result) :: r.results }

end ProofGate

section Evolution

/-- evolution.ts `EvolutionConfig`. -/
structure EvolutionConfig where
  populationSize : ℕ
  generations : ℕ
  objectives : List ObjectiveSpec
  proofGate : ProofGateConfig
  crossoverRate : ℚ
  mutationRate : ℚ
  stateDimension : ℕ

/-- evolution.ts `GenerationStats`. -/
structure GenerationStats where
  generation : ℕ
  populationSize : ℕ
  paretoFrontSize : ℕ
  passedProofGate : ℕ
  failedProofGate : ℕ
  avgObjectives : List ℚ
  bestObjectives : List ℚ
  timestamp : ℕ
deriving DecidableEq

/-- evolution.ts `EvolutionResult`. -/
structure EvolutionResult where
  finalPopulation : List MetaAgent
  paretoFront : List MetaAgent
  stats : List GenerationStats
  elapsedMs : ℕ
deriving DecidableEq

/-- evolution.ts `evaluateAgent`, the reference evaluator: six
objective values derived from the agent's state norm, tool cost,
knowledge size, decision count and uncertainty.  `Math.sqrt` is `sq`,
`Date.now()` is `now`; the initial 1 ms `setTimeout` pause changes no
data. -/
def evaluateAgent (sq : ℚ → ℚ) (now : ℕ) (agent : MetaAgent) : MetaAgent :=
  let stateNorm := sq (normSquared agent.perception.state)
  let toolCost := (agent.coordination.tools.map (fun t => t.cost)).sum
  let knowledgeSize : ℚ := (agent.reasoning.knowledge.length : ℕ)
  { agent with
    objectives :=
      { values :=
          [min 1 (0.2 + knowledgeSize * 0.1 + |1 - stateNorm| * 0.2),
           50 + knowledgeSize * 10 + toolCost * 5,
           min 1 ((agent.coordination.decisions.length : ℕ) * 0.1),
           if toolCost > 0 then min 1 (1 / (1 + |toolCost - 1|)) else 0.5,
           agent.perception.uncertainty,
           toolCost + knowledgeSize * 0.1]
        timestamp := now } }

/-- evolution.ts `crossoverAgents`: clone the first parent, bump the
generation past both parents, blend the parents' states with
`spectralSync`, take the first two knowledge items and the first tool
of each parent, and tag the lineage.  (Parents bred by the driver
share the configured state dimension, so the source's `spectralSync`
call cannot hit its undefined-read failure; the total core
`spectralSyncT` is therefore exact here.) -/
def crossoverAgents (sq : ℚ → ℚ) (parent1 parent2 : MetaAgent)
    (childId : String) (now : ℕ) : MetaAgent :=
  let child := cloneAgent parent1 (some childId)
  let child := { child with generation := max parent1.generation parent2.generation + 1 }
  let syncedState := spectralSyncT sq [parent1.perception.state, parent2.perception.state]
  let child := updatePerception child syncedState
    ("crossover:" ++ parent1.id ++ "x" ++ parent2.id) now
  let child :=
    { child with
      reasoning :=
        { child.reasoning with
          knowledge := parent1.reasoning.knowledge.take 2 ++
            parent2.reasoning.knowledge.take 2 }
      coordination :=
        { child.coordination with
          tools := parent1.coordination.tools.take 1 ++
            parent2.coordination.tools.take 1 } }
  { child with lineage := child.lineage ++ ["crossover:gen" ++ toString child.generation] }

/-- The `Math.random()` draws and the `Date.now()` read consumed by a
single evolution.ts `mutateAgent` call. -/
structure MutOracle where
  gate : ℚ
  perturb : ℕ → ℚ × ℚ
  dropDraw : ℚ
  addDraw : ℚ
  now : ℕ

/-- evolution.ts `mutateAgent`: with probability `rate` perturb every
state component by `(draw − 0.5) · 0.2`, renormalise, then with
probability 0.3 drop the last knowledge item and with probability 0.3
append a generation-tagged fact, tagging lineage throughout. -/
def mutateAgent (sq : ℚ → ℚ) (o : MutOracle) (agent : MetaAgent) (rate : ℚ) : MetaAgent :=
  if o.gate ≥ rate then agent
  else
    let perturbedState := agent.perception.state.enum.map (fun iz =>
      (⟨iz.2.re + ((o.perturb iz.1).1 - 0.5) * 0.2,
        iz.2.im + ((o.perturb iz.1).2 - 0.5) * 0.2⟩ : Complex ℚ))
    let agent := updatePerception agent (normalize sq perturbedState) "mutation" o.now
    let agent :=
      if o.dropDraw < 0.3 ∧ 0 < agent.reasoning.knowledge.length then
        { agent with reasoning :=
          { agent.reasoning with knowledge := agent.reasoning.knowledge.dropLast } }
      else agent
    let agent :=
      if o.addDraw < 0.3 then
        { agent with reasoning :=
          { agent.reasoning with knowledge := agent.reasoning.knowledge ++
            [.fact ("learned-fact-gen" ++ toString agent.generation)] } }
      else agent
    { agent with lineage := agent.lineage ++ ["mutation:gen" ++ toString agent.generation] }

/-- The genome records evolve builds from passed agents
(`{ id, objectives, agent }`). -/
def toGenome (agent : MetaAgent) : Genome MetaAgent :=
  { id := agent.id, objectives := agent.objectives, payload := agent }

/-- The source's `fastNonDominatedSort` / `crowdingDistance` write
`rank` and `crowding` in place on the genome objects shared with the
`genomes` array.  The functional embedding reflects those writes by
replacing each genome with its annotated front copy (ids are unique
along a driver run). -/
def annotate (genomes written : List (Genome MetaAgent)) : List (Genome MetaAgent) :=
  genomes.map (fun g => (written.find? (fun w => w.id == g.id)).getD g)

/-- Default genome handed to `tournamentSelect` for its (never
reached on the driver's non-empty mating pools) out-of-range default. -/
def defaultGenome : Genome MetaAgent :=
  toGenome (createAgent "" AgentKind.tutor 0 0)

/-- All environment inputs of one evolution.ts `evolve` call: the
wall-clock reads and every `Math.random()` draw, indexed by
generation (and child index where applicable).  Wall-clock reads that
occur inside one step share one oracle slot; no property below
concerns timestamps. -/
structure EvoOracle where
  createTime : ℕ → ℕ
  evalTime : ℕ → ℕ
  gateTime : ℕ → ℕ
  stab : ℕ → MetaAgent → Bool
  statTime : ℕ → ℕ
  parent1a : ℕ → ℕ → ℕ
  parent1b : ℕ → ℕ → ℕ
  parent2a : ℕ → ℕ → ℕ
  parent2b : ℕ → ℕ → ℕ
  crossDraw : ℕ → ℕ → ℚ
  crossTime : ℕ → ℕ → ℕ
  mutDraws : ℕ → ℕ → MutOracle
  startTime : ℕ
  endTime : ℕ

/-- The statistics snapshot pushed by step 4 of the generation loop. -/
def genStats (cfg : EvolutionConfig) (gen popSize : ℕ)
    (passed failed : List MetaAgent) (paretoFront : List (Genome MetaAgent))
    (now : ℕ) : GenerationStats :=
  let avgObjectives := cfg.objectives.enum.map (fun isp =>
    (passed.map (fun a => a.objectives.values.getD isp.1 0)).sum / ((passed.length : ℕ) : ℚ))
  let bestAgent := ((paretoFront.head?).map (fun g => g.payload)).getD
    (passed.headD (createAgent "" AgentKind.tutor 0 0))
  { generation := gen
    populationSize := popSize
    paretoFrontSize := paretoFront.length
    passedProofGate := passed.length
    failedProofGate := failed.length
    avgObjectives := avgObjectives
    bestObjectives := bestAgent.objectives.values
    timestamp := now }

/-- Step 5 of the generation loop: NSGA-II elitism at half the
population size, then tournament parents, crossover-or-clone and
mutation until the population is refilled; child ids are
`agent-gen<k+1>-<n>` with `n` the position at push time. -/
def reproduce (sq : ℚ → ℚ) (o : EvoOracle) (cfg : EvolutionConfig) (gen : ℕ)
    (genomes : List (Genome MetaAgent)) : List MetaAgent :=
  let survivors := nsga2Select genomes cfg.objectives (cfg.populationSize / 2)
  let annotated := annotate genomes
    (((fastNonDominatedSort genomes cfg.objectives).map
      (fun f => (crowdingDistance f cfg.objectives).2)).flatten)
  let base := survivors.map (fun g => g.payload)
  (List.range (cfg.populationSize - base.length)).foldl (fun nextGen j =>
    let p1 := (tournamentSelect annotated defaultGenome (o.parent1a gen j) (o.parent1b gen j)).payload
    let p2 := (tournamentSelect annotated defaultGenome (o.parent2a gen j) (o.parent2b gen j)).payload
    let childId := "agent-gen" ++ toString (gen + 1) ++ "-" ++ toString nextGen.length
    let child :=
      if o.crossDraw gen j < cfg.crossoverRate then
        crossoverAgents sq p1 p2 childId (o.crossTime gen j)
      else
        { cloneAgent p1 (some childId) with generation := gen + 1 }
    nextGen ++ [mutateAgent sq (o.mutDraws gen j) child cfg.mutationRate]) base

/-- Trace of the generation loop: the snapshots it pushed, the
population binding when it ended, and whether it ended through the
empty-gate `break`. -/
structure LoopOut where
  stats : List GenerationStats
  population : List MetaAgent
  halted : Bool
deriving DecidableEq

/-- The generation loop of evolution.ts `evolve` (`gen` is the
current index, `remaining` the generations still to run): evaluate,
gate — `break`ing immediately when nothing passes, before any
snapshot is pushed —, sort, push the snapshot, then reproduce (or, in
the final generation, keep the gated survivors). -/
def evoLoop (sq : ℚ → ℚ) (o : EvoOracle) (cfg : EvolutionConfig) :
    (gen remaining : ℕ) → List MetaAgent → LoopOut
  | _, 0, population => { stats := [], population := population, halted := false }
  | gen, remaining + 1, population =>
    let evald := population.map (evaluateAgent sq (o.evalTime gen))
    let gate := applyProofGate sq (o.stab gen) (o.gateTime gen) cfg.proofGate evald
    if gate.passed.length = 0 then
      { stats := [], population := evald, halted := true }
    else
      let genomes := gate.passed.map toGenome
      let fronts := fastNonDominatedSort genomes cfg.objectives
      let paretoFront := fronts.headD []
      let stat := genStats cfg gen evald.length gate.passed gate.failed paretoFront
        (o.statTime gen)
      let nextPop :=
        if remaining = 0 then gate.passed
        else reproduce sq o cfg gen genomes
      let rest := evoLoop sq o cfg (gen + 1) remaining nextPop
      { stats := stat :: rest.stats, population := rest.population, halted := rest.halted }

/-- evolution.ts `evolve`: seed generation-0 tutors, run the
generation loop, then the final evaluate + gate + sort, and return
the passed final population, the final Pareto front, the snapshots
and the elapsed time. -/
def evolve (sq : ℚ → ℚ) (o : EvoOracle) (cfg : EvolutionConfig) : EvolutionResult :=
  let initPop := (List.range cfg.populationSize).map (fun i =>
    createAgent ("agent-gen0-" ++ toString i) AgentKind.tutor cfg.stateDimension
      (o.createTime i))
  let loop := evoLoop sq o cfg 0 cfg.generations initPop
  let finalEvald := loop.population.map (evaluateAgent sq (o.evalTime cfg.generations))
  let finalGate := applyProofGate sq (o.stab cfg.generations) (o.gateTime cfg.generations)
    cfg.proofGate finalEvald
  let finalGenomes := finalGate.passed.map toGenome
  let finalFronts := fastNonDominatedSort finalGenomes cfg.objectives
  { finalPopulation := finalGate.passed
    paretoFront := (finalFronts.headD []).map (fun g => g.payload)
    stats := loop.stats
    elapsedMs := o.endTime - o.startTime }

end Evolution

section ConcreteInstances

/-- Square-root oracle for concrete `ℚ` runs.  In every run it is used
on below, it is only ever applied to `0`, where the real square root
is also `0`. -/
def sqZero : ℚ → ℚ := fun _ => 0

/-- Constant draw record for a mutation call (the gate draw 1 makes
`mutateAgent` a no-op for any rate ≤ 1). -/
def constMutOracle : MutOracle :=
  { gate := 1, perturb := fun _ => (0, 0), dropDraw := 1, addDraw := 1, now := 0 }

/-- Constant environment oracle for concrete runs. -/
def constOracle : EvoOracle :=
  { createTime := fun _ => 0
    evalTime := fun _ => 0
    gateTime := fun _ => 0
    stab := fun _ _ => true
    statTime := fun _ => 0
    parent1a := fun _ _ => 0
    parent1b := fun _ _ => 0
    parent2a := fun _ _ => 0
    parent2b := fun _ _ => 0
    crossDraw := fun _ _ => 1
    crossTime := fun _ _ => 0
    mutDraws := fun _ _ => constMutOracle
    startTime := 0
    endTime := 0 }

/-- Gate configuration that no agent can pass: the privacy budget is
negative while every agent's privacy-loss objective (its uncertainty)
starts at 1. -/
def haltGate : ProofGateConfig :=
  { laws := []
    maxPrivacyLoss := -1
    maxCost := 50
    requireStability := false
    stabilityEpsilon := 1 / 10 }

/-- Run configuration whose proof gate rejects the whole population at
generation 0. -/
def haltConfig : EvolutionConfig :=
  { populationSize := 3
    generations := 1
    objectives := DEFAULT_OBJECTIVES
    proofGate := haltGate
    crossoverRate := 7 / 10
    mutationRate := 1 / 5
    stateDimension := 1 }

/-- A single-axis spec list used by concrete dominance instances. -/
def specsM : List ObjectiveSpec := [⟨"m", .max, none⟩]

/-- Concrete genomes over the single `max` axis. -/
def gA : Genome Unit := { id := "a", objectives := { values := [3], timestamp := 0 }, payload := () }

/-- Second concrete genome. -/
def gB : Genome Unit := { id := "b", objectives := { values := [2], timestamp := 0 }, payload := () }

/-- Third concrete genome. -/
def gC : Genome Unit := { id := "c", objectives := { values := [1], timestamp := 0 }, payload := () }

end ConcreteInstances

section ProofSide

variable {π : Type}

/-- Proof-side description: the number of entries of `l` carrying the
id `s`. -/
def idCount (l : List (Genome π)) (s : String) : ℕ :=
  (l.map (fun g => g.id)).count s

/-- Proof-side description: the population entries that dominate `q`,
skipping the entry with `q`'s own id — exactly the entries `p` with
`q ∈ S(p)`, so `n(q)` starts at this list's length and is decremented
once as each member's front is processed. -/
def dominatorsIn (specs : List ObjectiveSpec) (pop : List (Genome π))
    (q : Genome π) : List (Genome π) :=
  pop.filter (fun p => !(p.id == q.id) && dominatesT specs p q)

end ProofSide

-- ## Theorems

section DominanceLemmas

variable {π : Type}

theorem strictlyBetter_self (a : ℚ) (s : ObjectiveSense) :
    strictlyBetter a a s = false := by
  cases s <;> simp [strictlyBetter]

theorem strictlyBetter_not_noWorse {a b : ℚ} {s : ObjectiveSense}
    (h : strictlyBetter a b s = true) : noWorse b a s = false := by
  cases s <;> simp_all [strictlyBetter, noWorse]

theorem noWorse_trans {a b c : ℚ} {s : ObjectiveSense}
    (h1 : noWorse a b s = true) (h2 : noWorse b c s = true) : noWorse a c s = true := by
  cases s <;> simp_all [noWorse] <;> linarith

theorem strictlyBetter_noWorse_trans {a b c : ℚ} {s : ObjectiveSense}
    (h1 : strictlyBetter a b s = true) (h2 : noWorse b c s = true) :
    strictlyBetter a c s = true := by
  cases s <;> simp_all [strictlyBetter, noWorse] <;> linarith

theorem noWorse_strictlyBetter_trans {a b c : ℚ} {s : ObjectiveSense}
    (h1 : noWorse a b s = true) (h2 : strictlyBetter b c s = true) :
    strictlyBetter a c s = true := by
  cases s <;> simp_all [strictlyBetter, noWorse] <;> linarith

theorem dominatesT_irrefl (specs : List ObjectiveSpec) (a : Genome π) :
    dominatesT specs a a = false := by
  unfold dominatesT
  rw [Bool.and_eq_false_iff]
  right
  rw [List.any_eq_false]
  intro i _
  simp [strictlyBetter_self]

theorem dominatesT_asymm {specs : List ObjectiveSpec} {a b : Genome π}
    (h : dominatesT specs a b = true) : dominatesT specs b a = false := by
  unfold dominatesT at h ⊢
  rw [Bool.and_eq_true] at h
  obtain ⟨_, hany⟩ := h
  rw [List.any_eq_true] at hany
  obtain ⟨i, hi, hsb⟩ := hany
  rw [Bool.and_eq_false_iff]
  left
  rw [List.all_eq_false]
  exact ⟨i, hi, by rw [strictlyBetter_not_noWorse hsb]; simp⟩

theorem dominatesT_trans {specs : List ObjectiveSpec} {a b c : Genome π}
    (h1 : dominatesT specs a b = true) (h2 : dominatesT specs b c = true) :
    dominatesT specs a c = true := by
  unfold dominatesT at h1 h2 ⊢
  rw [Bool.and_eq_true] at h1 h2 ⊢
  obtain ⟨hall1, hany1⟩ := h1
  obtain ⟨hall2, hany2⟩ := h2
  rw [List.all_eq_true] at hall1 hall2
  constructor
  · rw [List.all_eq_true]
    intro i hi
    exact noWorse_trans (hall1 i hi) (hall2 i hi)
  · rw [List.any_eq_true] at hany1 ⊢
    obtain ⟨i, hi, hsb⟩ := hany1
    exact ⟨i, hi, strictlyBetter_noWorse_trans hsb (hall2 i hi)⟩

theorem dominates_ok {specs : List ObjectiveSpec} {a b : Genome π}
    (ha : a.objectives.values.length = specs.length)
    (hb : b.objectives.values.length = specs.length) :
    dominates a b specs = .ok (dominatesT specs a b) := by
  unfold dominates
  rw [if_neg]
  push_neg
  exact ⟨ha, hb⟩

end DominanceLemmas

/-- C7.  For genomes whose objective-vector lengths equal the axis
count, `dominates` never throws and is irreflexive, asymmetric and
transitive. -/
theorem dominates_strict_order {π : Type} (specs : List ObjectiveSpec)
    (a b c : Genome π)
    (ha : a.objectives.values.length = specs.length)
    (hb : b.objectives.values.length = specs.length)
    (hc : c.objectives.values.length = specs.length) :
    dominates a a specs = .ok false ∧
    (dominates a b specs = .ok true → dominates b a specs = .ok false) ∧
    (dominates a b specs = .ok true → dominates b c specs = .ok true →
      dominates a c specs = .ok true) := by
  refine ⟨?_, ?_, ?_⟩
  · rw [dominates_ok ha ha, dominatesT_irrefl]
  · intro hab
    rw [dominates_ok ha hb] at hab
    rw [dominates_ok hb ha, dominatesT_asymm (Except.ok.inj hab)]
  · intro hab hbc
    rw [dominates_ok ha hb] at hab
    rw [dominates_ok hb hc] at hbc
    rw [dominates_ok ha hc,
      dominatesT_trans (Except.ok.inj hab) (Except.ok.inj hbc)]

/-- Witness for C7 at three concrete single-axis genomes. -/
theorem dominates_strict_order_witness :
    (gA.objectives.values.length = specsM.length ∧
     gB.objectives.values.length = specsM.length ∧
     gC.objectives.values.length = specsM.length) ∧
    (dominates gA gA specsM = .ok false ∧
     (dominates gA gB specsM = .ok true → dominates gB gA specsM = .ok false) ∧
     (dominates gA gB specsM = .ok true → dominates gB gC specsM = .ok true →
       dominates gA gC specsM = .ok true)) :=
  ⟨by decide, dominates_strict_order specsM gA gB gC (by decide) (by decide) (by decide)⟩

section HilbertLemmas

variable {K : Type} [LinearOrderedField K]

theorem normSquared_sum (l : HilbertState K) :
    normSquared l = (l.map (fun z => z.re * z.re + z.im * z.im)).sum := by
  unfold normSquared
  suffices h : ∀ c : K,
      l.foldl (fun s z => s + (z.re * z.re + z.im * z.im)) c =
        c + (l.map (fun z => z.re * z.re + z.im * z.im)).sum by
    simpa using h 0
  induction l with
  | nil => simp
  | cons a t ih => intro c; simp [ih, add_assoc]

theorem normSquared_nonneg (l : HilbertState K) : 0 ≤ normSquared l := by
  rw [normSquared_sum]
  apply List.sum_nonneg
  intro x hx
  simp only [List.mem_map] at hx
  obtain ⟨z, _, rfl⟩ := hx
  exact add_nonneg (mul_self_nonneg _) (mul_self_nonneg _)

theorem normSquared_map_div (l : HilbertState K) (n : K) :
    normSquared (l.map (fun z => (⟨z.re / n, z.im / n⟩ : Complex K))) =
      normSquared l / n ^ 2 := by
  rw [normSquared_sum, normSquared_sum]
  induction l with
  | nil => simp
  | cons a t ih =>
    simp only [List.map_cons, List.sum_cons, ih]
    rw [pow_two, div_mul_div_comm, div_mul_div_comm, div_add_div_same, div_add_div_same]

theorem eps12_pos : (0 : K) < eps12 := by
  unfold eps12
  norm_num

theorem normalize_length (sq : K → K) (x : HilbertState K) :
    (normalize sq x).length = x.length := by
  unfold normalize
  split <;> simp [zeroState]

theorem norm_normalize_of_large (x : HilbertState ℝ)
    (h : eps12 ≤ norm Real.sqrt x) :
    norm Real.sqrt (normalize Real.sqrt x) = 1 := by
  have hn : ¬ (norm Real.sqrt x < eps12) := not_lt.mpr h
  have hpos : 0 < norm Real.sqrt x := lt_of_lt_of_le eps12_pos h
  have hsq : (norm Real.sqrt x) ^ 2 = normSquared x := Real.sq_sqrt (normSquared_nonneg x)
  have h0 : 0 < normSquared x := by rw [← hsq]; positivity
  unfold normalize
  simp only [hn, if_false]
  unfold norm
  rw [normSquared_map_div]
  unfold norm at hsq
  rw [hsq, div_self (ne_of_gt h0), Real.sqrt_one]

omit [LinearOrderedField K] in
theorem map_range_getD (l : List (Complex K)) (d : Complex K) :
    (List.range l.length).map (fun i => l.getD i d) = l := by
  induction l with
  | nil => simp
  | cons a t ih =>
    rw [List.length_cons, List.range_succ_eq_map, List.map_cons, List.map_map]
    have hc : List.map ((fun i => (a :: t).getD i d) ∘ Nat.succ) (List.range t.length) =
        List.map (fun i => t.getD i d) (List.range t.length) :=
      List.map_congr_left (fun i _ => by simp [Function.comp, List.getD_cons_succ])
    rw [List.getD_cons_zero, hc, ih]

theorem consensusAvg_single (s : HilbertState K) : consensusAvg [s] = s := by
  simp only [consensusAvg, List.map_cons, List.map_nil, List.sum_cons, List.sum_nil,
    add_zero, List.length_cons, List.length_nil, Nat.zero_add, Nat.cast_one, div_one]
  exact map_range_getD s ⟨0, 0⟩

theorem spectralSyncT_single (sq : K → K) (s : HilbertState K) :
    spectralSyncT sq [s] = normalize sq s := by
  simp only [spectralSyncT]
  rw [consensusAvg_single]

theorem consensusAvg_length (states : List (HilbertState K)) :
    (consensusAvg states).length = (states.headD []).length := by
  cases states <;> simp [consensusAvg]

theorem spectralSync_ok_of_dims {sq : K → K} {states : List (HilbertState K)}
    {s0 : HilbertState K} {rest : List (HilbertState K)}
    (hcons : states = s0 :: rest) (hdims : ∀ s ∈ states, s.length = s0.length) :
    spectralSync sq states = .ok (spectralSyncT sq states) := by
  subst hcons
  have hall : ((s0 :: rest).all fun s => decide (s0.length ≤ s.length)) = true := by
    rw [List.all_eq_true]
    intro s hs
    simp [hdims s hs]
  simp [spectralSync, hall]

end HilbertLemmas

/-- C3 (amended).  Consensus averaging never fails on equal-dimension
inputs and yields a state of norm exactly 1 (in the real-arithmetic
model) whenever the componentwise mean clears the `1e-12` cutoff; on
a single input it returns exactly `normalize` of it.  (The original
claim's hypothesis — some input being non-zero — does not suffice:
opposite inputs average to the zero state, see the counterexample.) -/
theorem spectralSync_unit_norm :
    (∀ (s0 : HilbertState ℝ) (rest : List (HilbertState ℝ)),
      (∀ s ∈ s0 :: rest, s.length = s0.length) →
      eps12 ≤ norm Real.sqrt (consensusAvg (s0 :: rest)) →
      spectralSync Real.sqrt (s0 :: rest) = .ok (spectralSyncT Real.sqrt (s0 :: rest)) ∧
      norm Real.sqrt (spectralSyncT Real.sqrt (s0 :: rest)) = 1) ∧
    (∀ s : HilbertState ℝ, spectralSync Real.sqrt [s] = .ok (normalize Real.sqrt s)) := by
  constructor
  · intro s0 rest hdims hbig
    refine ⟨spectralSync_ok_of_dims rfl hdims, ?_⟩
    unfold spectralSyncT
    exact norm_normalize_of_large _ hbig
  · intro s
    rw [spectralSync_ok_of_dims rfl (by simp), spectralSyncT_single]

/-- Witness for C3 at the single non-zero input `[(1, 0)]`. -/
theorem spectralSync_unit_norm_witness :
    ((∀ s ∈ [[((⟨1, 0⟩ : Complex ℝ))]], s.length = [(⟨1, 0⟩ : Complex ℝ)].length) ∧
      eps12 ≤ norm Real.sqrt (consensusAvg [[(⟨1, 0⟩ : Complex ℝ)]])) ∧
    (spectralSync Real.sqrt [[(⟨1, 0⟩ : Complex ℝ)]] =
        .ok (spectralSyncT Real.sqrt [[(⟨1, 0⟩ : Complex ℝ)]]) ∧
      norm Real.sqrt (spectralSyncT Real.sqrt [[(⟨1, 0⟩ : Complex ℝ)]]) = 1) := by
  have hdims : ∀ s ∈ [[((⟨1, 0⟩ : Complex ℝ))]], s.length = [(⟨1, 0⟩ : Complex ℝ)].length := by
    simp
  have hbig : eps12 ≤ norm Real.sqrt (consensusAvg [[(⟨1, 0⟩ : Complex ℝ)]]) := by
    rw [consensusAvg_single]
    unfold norm normSquared eps12
    simp only [List.foldl_cons, List.foldl_nil]
    rw [show (0 : ℝ) + (1 * 1 + 0 * 0) = 1 by ring, Real.sqrt_one]
    norm_num
  exact ⟨⟨hdims, hbig⟩, spectralSync_unit_norm.1 [⟨1, 0⟩] [] hdims hbig⟩

/-- Counterexample for C3 as stated: the two inputs `[(1,0)]` and
`[(-1,0)]` are both non-zero, yet `spectralSync` returns the zero
state, of norm 0, not a unit-norm state. -/
theorem spectralSync_unit_norm_cex :
    spectralSync Real.sqrt [[(⟨1, 0⟩ : Complex ℝ)], [⟨-1, 0⟩]] = .ok [⟨0, 0⟩] ∧
    norm Real.sqrt [(⟨0, 0⟩ : Complex ℝ)] = 0 ∧
    norm Real.sqrt [(⟨1, 0⟩ : Complex ℝ)] = 1 ∧
    norm Real.sqrt [(⟨-1, 0⟩ : Complex ℝ)] = 1 := by
  have h1 : norm Real.sqrt [(⟨1, 0⟩ : Complex ℝ)] = 1 := by
    unfold norm normSquared
    simp only [List.foldl_cons, List.foldl_nil]
    rw [show (0 : ℝ) + (1 * 1 + 0 * 0) = 1 by ring, Real.sqrt_one]
  have hm1 : norm Real.sqrt [(⟨-1, 0⟩ : Complex ℝ)] = 1 := by
    unfold norm normSquared
    simp only [List.foldl_cons, List.foldl_nil]
    rw [show (0 : ℝ) + (-1 * -1 + 0 * 0) = 1 by ring, Real.sqrt_one]
  have h0 : norm Real.sqrt [(⟨0, 0⟩ : Complex ℝ)] = 0 := by
    unfold norm normSquared
    simp only [List.foldl_cons, List.foldl_nil]
    rw [show (0 : ℝ) + (0 * 0 + 0 * 0) = 0 by ring, Real.sqrt_zero]
  refine ⟨?_, h0, h1, hm1⟩
  have havg : consensusAvg [[(⟨1, 0⟩ : Complex ℝ)], [⟨-1, 0⟩]] = [⟨0, 0⟩] := by
    simp only [consensusAvg, List.length_cons, List.length_nil, List.range_succ,
      List.range_zero, List.nil_append, List.map_cons, List.map_nil, List.sum_cons,
      List.sum_nil, List.getD_cons_zero]
    norm_num [Complex.mk.injEq]
  have hsync : spectralSyncT Real.sqrt [[(⟨1, 0⟩ : Complex ℝ)], [⟨-1, 0⟩]] = [⟨0, 0⟩] := by
    simp only [spectralSyncT]
    rw [havg]
    unfold normalize
    rw [if_pos]
    · simp [zeroState]
    · rw [show norm Real.sqrt [(⟨0, 0⟩ : Complex ℝ)] = 0 from h0]
      exact eps12_pos
  rw [spectralSync_ok_of_dims rfl (by simp), hsync]

/-- C4 (amended).  `normalize` and `spectralSync` preserve the (first)
input dimension; `privacyProjection` preserves the dimension exactly
when `target ≥ |x|` and otherwise truncates to `target` components
(the original claim's "length `|x|` for every target" fails, see the
counterexample). -/
theorem state_dim_preservation {K : Type} [LinearOrderedField K] (sq : K → K)
    (noise : ℕ → K × K) (noiseScale : K) :
    (∀ x : HilbertState K, (normalize sq x).length = x.length) ∧
    (∀ (states : List (HilbertState K)) (y : HilbertState K),
      spectralSync sq states = .ok y → y.length = (states.headD []).length) ∧
    (∀ (x : HilbertState K) (t : ℕ), x.length ≤ t →
      (privacyProjection noise x t noiseScale).length = x.length) ∧
    (∀ (x : HilbertState K) (t : ℕ), t < x.length →
      (privacyProjection noise x t noiseScale).length = t) := by
  refine ⟨normalize_length sq, ?_, ?_, ?_⟩
  · intro states y h
    cases states with
    | nil =>
      simp only [spectralSync] at h
      cases h
      simp
    | cons s0 rest =>
      simp only [spectralSync] at h
      split at h
      · cases h
        unfold spectralSyncT
        rw [normalize_length, consensusAvg_length]
      · cases h
  · intro x t ht
    unfold privacyProjection
    rw [if_pos ht]
    simp
  · intro x t ht
    unfold privacyProjection
    rw [if_neg (not_le.mpr ht)]
    simp [List.length_take, Nat.min_eq_left (le_of_lt ht)]

/-- Witness for C4: both `privacyProjection` branches at concrete
inputs, via the theorem. -/
theorem state_dim_preservation_witness :
    (([(⟨0, 0⟩ : Complex ℚ)].length ≤ 2 ∧
        (privacyProjection (fun _ => ((0 : ℚ), (0 : ℚ))) [⟨0, 0⟩] 2 0).length = 1) ∧
      (1 < [(⟨0, 0⟩ : Complex ℚ), ⟨0, 0⟩].length ∧
        (privacyProjection (fun _ => ((0 : ℚ), (0 : ℚ))) [⟨0, 0⟩, ⟨0, 0⟩] 1 0).length = 1)) ∧
    (normalize sqZero [(⟨0, 0⟩ : Complex ℚ)]).length = 1 := by
  refine ⟨⟨⟨by decide, ?_⟩, ⟨by decide, ?_⟩⟩, ?_⟩
  · simpa using
      (state_dim_preservation sqZero (fun _ => ((0 : ℚ), (0 : ℚ))) 0).2.2.1 [⟨0, 0⟩] 2
        (by decide)
  · exact
      (state_dim_preservation sqZero (fun _ => ((0 : ℚ), (0 : ℚ))) 0).2.2.2 [⟨0, 0⟩, ⟨0, 0⟩] 1
        (by decide)
  · simpa using
      (state_dim_preservation sqZero (fun _ => ((0 : ℚ), (0 : ℚ))) 0).1 [⟨0, 0⟩]

/-- Counterexample for C4 as stated: projecting a two-component state
to one component returns one component, not `|x| = 2`. -/
theorem state_dim_preservation_cex :
    (privacyProjection (fun _ => ((0 : ℚ), (0 : ℚ))) [⟨0, 0⟩, ⟨0, 0⟩] 1 (1 / 10)).length ≠
      [(⟨0, 0⟩ : Complex ℚ), ⟨0, 0⟩].length := by
  decide

/-- C6 (amended).  `innerProduct` and `stateDistance` throw the
dimension-mismatch error on inputs of unequal length.  `spectralSync`
has no dimension check: it fails (with a `TypeError`, not a
dimension diagnostic) only when some input is shorter than the first;
a longer input is silently truncated (see the counterexample). -/
theorem dimension_mismatch_errors {K : Type} [LinearOrderedField K] (sq : K → K) :
    (∀ a b : HilbertState K, a.length ≠ b.length →
      innerProduct a b = .error "States must have same dimension" ∧
      stateDistance sq a b = .error "States must have same dimension") ∧
    (∀ (s0 : HilbertState K) (rest : List (HilbertState K)),
      (∃ s ∈ s0 :: rest, s.length < s0.length) →
      spectralSync sq (s0 :: rest) = .error "TypeError: state component is undefined") := by
  constructor
  · intro a b h
    constructor
    · unfold innerProduct
      rw [if_pos h]
    · unfold stateDistance
      rw [if_pos h]
  · intro s0 rest ⟨s, hs, hlt⟩
    have h : ¬ (((s0 :: rest).all fun s => decide (s0.length ≤ s.length)) = true) := by
      intro hall
      rw [List.all_eq_true] at hall
      have := hall s hs
      simp only [decide_eq_true_eq] at this
      omega
    simp only [spectralSync]
    rw [if_neg h]

/-- Witness for C6 at concrete mismatched inputs. -/
theorem dimension_mismatch_errors_witness :
    (([(⟨0, 0⟩ : Complex ℚ)].length ≠ ([] : HilbertState ℚ).length) ∧
      innerProduct [(⟨0, 0⟩ : Complex ℚ)] [] = .error "States must have same dimension" ∧
      stateDistance sqZero [(⟨0, 0⟩ : Complex ℚ)] [] =
        .error "States must have same dimension") ∧
    ((∃ s ∈ [[(⟨0, 0⟩ : Complex ℚ)], []], s.length < [(⟨0, 0⟩ : Complex ℚ)].length) ∧
      spectralSync sqZero [[(⟨0, 0⟩ : Complex ℚ)], []] =
        .error "TypeError: state component is undefined") := by
  refine ⟨⟨by decide, ?_⟩, ⟨⟨[], by simp, by decide⟩, ?_⟩⟩
  · exact (dimension_mismatch_errors sqZero).1 [⟨0, 0⟩] [] (by decide)
  · exact (dimension_mismatch_errors sqZero).2 [⟨0, 0⟩] [[]] ⟨[], by simp, by decide⟩

/-- Counterexample for C6 as stated: a longer second input has a
different dimension, yet `spectralSync` raises nothing and returns a
result. -/
theorem dimension_mismatch_errors_cex :
    (∃ y, spectralSync Real.sqrt [[(⟨1, 0⟩ : Complex ℝ)], [⟨1, 0⟩, ⟨0, 0⟩]] = .ok y) ∧
    [(⟨1, 0⟩ : Complex ℝ)].length ≠ [(⟨1, 0⟩ : Complex ℝ), ⟨0, 0⟩].length :=
  ⟨⟨spectralSyncT Real.sqrt [[(⟨1, 0⟩ : Complex ℝ)], [⟨1, 0⟩, ⟨0, 0⟩]], rfl⟩, by decide⟩

/-- C5 (amended).  `createAgent` and the reference evaluator always
produce an objective vector of length 6 — the length matches the
configured axis count exactly when that count is 6, as with
`DEFAULT_OBJECTIVES`; for any other axis count the stated invariant
fails (see the counterexample). -/
theorem objective_vector_length_six :
    (∀ (id : String) (kind : AgentKind) (stateDim now : ℕ),
      (createAgent id kind stateDim now).objectives.values.length = 6) ∧
    (∀ (sq : ℚ → ℚ) (now : ℕ) (a : MetaAgent),
      (evaluateAgent sq now a).objectives.values.length = 6) ∧
    DEFAULT_OBJECTIVES.length = 6 :=
  ⟨fun _ _ _ _ => rfl, fun _ _ _ => rfl, rfl⟩

/-- Counterexample for C5 as stated: with a configured axis list of
length 2, a freshly created agent's objective vector has length 6,
not the configured axis count. -/
theorem objective_vector_length_cex :
    (createAgent "x" AgentKind.tutor 4 0).objectives.values.length ≠
      ([⟨"gain", ObjectiveSense.max, none⟩,
        ⟨"cost", ObjectiveSense.min, none⟩] : List ObjectiveSpec).length := by
  decide

section GateLemmas

theorem applyProofGate_passed_failed (sq : ℚ → ℚ) (stab : MetaAgent → Bool) (now : ℕ)
    (config : ProofGateConfig) (pop : List MetaAgent) :
    (applyProofGate sq stab now config pop).passed =
      (pop.filter (fun a => (verifyAgent sq stab now config a).passed)).map
        (fun a => attachProof config a (verifyAgent sq stab now config a)) ∧
    (applyProofGate sq stab now config pop).failed =
      pop.filter (fun a => !(verifyAgent sq stab now config a).passed) := by
  induction pop with
  | nil => exact ⟨rfl, rfl⟩
  | cons a rest ih =>
    by_cases h : (verifyAgent sq stab now config a).passed = true
    · simp [applyProofGate, h, ih.1, ih.2]
    · simp [applyProofGate, h, ih.1, ih.2]

theorem attachProof_fields (config : ProofGateConfig) (a : MetaAgent)
    (r : VerificationResult) :
    (attachProof config a r).proof = some
      { spec := specSummary config.laws.length
        proof := r.checks
        verified := true
        timestamp := r.timestamp } := rfl

end GateLemmas

/-- C2.  The proof gate splits the population into the agents whose
verification passed — each returned with a proof bundle carrying
`verified = true`, the one-line spec summary and the serialised check
list — and the agents whose verification failed, returned untouched,
in population order; and every agent in the final population returned
by `evolve` carries a `verified = true` proof bundle. -/
theorem applyProofGate_verified (sq : ℚ → ℚ) (stab : MetaAgent → Bool) (now : ℕ)
    (config : ProofGateConfig) (pop : List MetaAgent) (o : EvoOracle)
    (cfg : EvolutionConfig) :
    ((applyProofGate sq stab now config pop).passed =
      (pop.filter (fun a => (verifyAgent sq stab now config a).passed)).map
        (fun a => attachProof config a (verifyAgent sq stab now config a))) ∧
    ((applyProofGate sq stab now config pop).failed =
      pop.filter (fun a => !(verifyAgent sq stab now config a).passed)) ∧
    (∀ a ∈ (applyProofGate sq stab now config pop).passed, ∃ pb,
      a.proof = some pb ∧ pb.verified = true ∧ pb.spec = specSummary config.laws.length ∧
      ∃ b, pb.proof = (verifyAgent sq stab now config b).checks) ∧
    (∀ a ∈ (evolve sq o cfg).finalPopulation, ∃ pb,
      a.proof = some pb ∧ pb.verified = true) := by
  obtain ⟨hp, hf⟩ := applyProofGate_passed_failed sq stab now config pop
  refine ⟨hp, hf, ?_, ?_⟩
  · intro a ha
    rw [hp] at ha
    rw [List.mem_map] at ha
    obtain ⟨b, _, rfl⟩ := ha
    exact ⟨_, attachProof_fields config b _, rfl, rfl, b, rfl⟩
  · intro a ha
    simp only [evolve] at ha
    rw [(applyProofGate_passed_failed _ _ _ _ _).1, List.mem_map] at ha
    obtain ⟨b, _, rfl⟩ := ha
    exact ⟨_, attachProof_fields _ b _, rfl⟩

section DriverLemmas

theorem evoLoop_stats (sq : ℚ → ℚ) (o : EvoOracle) (cfg : EvolutionConfig) :
    ∀ (remaining gen : ℕ) (pop : List MetaAgent),
    ∃ k ≤ remaining,
      (evoLoop sq o cfg gen remaining pop).stats.map (fun s => s.generation) =
        List.range' gen k ∧
      ((evoLoop sq o cfg gen remaining pop).halted = false → k = remaining) := by
  intro remaining
  induction remaining with
  | zero =>
    intro gen pop
    exact ⟨0, le_refl 0, rfl, fun _ => rfl⟩
  | succ remaining ih =>
    intro gen pop
    by_cases h : (applyProofGate sq (o.stab gen) (o.gateTime gen) cfg.proofGate
        (pop.map (evaluateAgent sq (o.evalTime gen)))).passed.length = 0
    · refine ⟨0, Nat.zero_le _, ?_, ?_⟩
      · simp [evoLoop, h]
      · simp [evoLoop, h]
    · obtain ⟨k, hk, hmap, hhalt⟩ := ih (gen + 1)
        (if remaining = 0 then
          (applyProofGate sq (o.stab gen) (o.gateTime gen) cfg.proofGate
            (pop.map (evaluateAgent sq (o.evalTime gen)))).passed
        else reproduce sq o cfg gen
          ((applyProofGate sq (o.stab gen) (o.gateTime gen) cfg.proofGate
            (pop.map (evaluateAgent sq (o.evalTime gen)))).passed.map toGenome))
      refine ⟨k + 1, Nat.succ_le_succ hk, ?_, ?_⟩
      · simp only [evoLoop, h, if_neg, if_false, List.map_cons]
        rw [List.range'_succ]
        simp only [List.cons.injEq]
        exact ⟨rfl, hmap⟩
      · simp only [evoLoop, h, if_neg, if_false]
        intro hh
        rw [hhalt hh]

end DriverLemmas

/-- C1 (amended).  The snapshot list of a run has consecutive
generation indices `0, 1, …, len − 1` (in particular strictly
increasing), its length never exceeds the configured generation
count, and it has exactly that length whenever the loop never hit the
empty-gate `break`.  When the gate does empty at generation `g` the
loop stops there *without* recording a snapshot for `g` — the
original claim's "the snapshot for `g` is still recorded" fails, see
the counterexample. -/
theorem evolve_snapshots (sq : ℚ → ℚ) (o : EvoOracle) (cfg : EvolutionConfig) :
    ((evolve sq o cfg).stats.map (fun s => s.generation) =
      List.range (evolve sq o cfg).stats.length) ∧
    (evolve sq o cfg).stats.length ≤ cfg.generations ∧
    ((evoLoop sq o cfg 0 cfg.generations ((List.range cfg.populationSize).map (fun i =>
        createAgent ("agent-gen0-" ++ toString i) AgentKind.tutor cfg.stateDimension
          (o.createTime i)))).halted = false →
      (evolve sq o cfg).stats.length = cfg.generations) := by
  obtain ⟨k, hk, hmap, hhalt⟩ := evoLoop_stats sq o cfg cfg.generations 0
    ((List.range cfg.populationSize).map (fun i =>
      createAgent ("agent-gen0-" ++ toString i) AgentKind.tutor cfg.stateDimension
        (o.createTime i)))
  have hstats : (evolve sq o cfg).stats =
      (evoLoop sq o cfg 0 cfg.generations ((List.range cfg.populationSize).map (fun i =>
        createAgent ("agent-gen0-" ++ toString i) AgentKind.tutor cfg.stateDimension
          (o.createTime i)))).stats := rfl
  have hlen : (evoLoop sq o cfg 0 cfg.generations ((List.range cfg.populationSize).map
      (fun i => createAgent ("agent-gen0-" ++ toString i) AgentKind.tutor
        cfg.stateDimension (o.createTime i)))).stats.length = k := by
    simpa using congrArg List.length hmap
  refine ⟨?_, ?_, ?_⟩
  · rw [hstats, hlen]
    exact hmap.trans (List.range_eq_range' k).symm
  · rw [hstats, hlen]; exact hk
  · intro hh
    rw [hstats, hlen]
    exact hhalt hh

/-- Counterexample for C1 as stated: under `haltConfig` every agent
fails the gate at generation 0, the run halts there, and the returned
snapshot list is empty — no snapshot was recorded for the halting
generation. -/
theorem evolve_halt_snapshot_cex :
    (applyProofGate sqZero (constOracle.stab 0) (constOracle.gateTime 0)
        haltConfig.proofGate
        (((List.range haltConfig.populationSize).map (fun i =>
          createAgent ("agent-gen0-" ++ toString i) AgentKind.tutor
            haltConfig.stateDimension (constOracle.createTime i))).map
          (evaluateAgent sqZero (constOracle.evalTime 0)))).passed = [] ∧
    (evolve sqZero constOracle haltConfig).stats = [] := by
  constructor
  · decide
  · decide

section CrowdingLemmas

variable {π : Type}

theorem eps10_pos : (0 : ℚ) < eps10 := by
  unfold eps10
  norm_num

theorem updMap_same (m : String → WithTop ℚ) (k : String) (v : WithTop ℚ) :
    updMap m k v k = v := by
  simp [updMap]

theorem updMap_ne (m : String → WithTop ℚ) (k : String) (v : WithTop ℚ)
    {s : String} (h : s ≠ k) : updMap m k v s = m s := by
  simp [updMap, h]

theorem foldl_condAddUpd_nonneg (C : ℕ → Prop) [DecidablePred C] (k : ℕ → String)
    (v : ℕ → WithTop ℚ) (hv : ∀ i, 0 ≤ v i) :
    ∀ (idxs : List ℕ) (d : String → WithTop ℚ), (∀ s, 0 ≤ d s) →
    ∀ s, 0 ≤ (idxs.foldl (fun d i => if C i then d else updMap d (k i) (d (k i) + v i)) d) s := by
  intro idxs
  induction idxs with
  | nil => intro d hd s; exact hd s
  | cons i rest ih =>
    intro d hd s
    rw [List.foldl_cons]
    apply ih
    intro t
    by_cases hC : C i
    · rw [if_pos hC]; exact hd t
    · rw [if_neg hC]
      by_cases ht : t = k i
      · subst ht; rw [updMap_same]; exact add_nonneg (hd _) (hv i)
      · rw [updMap_ne _ _ _ ht]; exact hd t

theorem foldl_condAddUpd_top (C : ℕ → Prop) [DecidablePred C] (k : ℕ → String)
    (v : ℕ → WithTop ℚ) :
    ∀ (idxs : List ℕ) (d : String → WithTop ℚ) (s : String), d s = ⊤ →
    (idxs.foldl (fun d i => if C i then d else updMap d (k i) (d (k i) + v i)) d) s = ⊤ := by
  intro idxs
  induction idxs with
  | nil => intro d s hd; exact hd
  | cons i rest ih =>
    intro d s hd
    rw [List.foldl_cons]
    apply ih
    by_cases hC : C i
    · rw [if_pos hC]; exact hd
    · rw [if_neg hC]
      by_cases ht : s = k i
      · subst ht; rw [updMap_same, hd, WithTop.top_add]
      · rw [updMap_ne _ _ _ ht]; exact hd

theorem axisPass_nonneg (front : List (Genome π)) (m : ℕ) (sense : ObjectiveSense)
    (dist : String → WithTop ℚ) (hd : ∀ s, 0 ≤ dist s) :
    ∀ s, 0 ≤ axisPass front m sense dist s := by
  intro s
  unfold axisPass
  cases hms : front.mergeSort (axisLe m sense) with
  | nil => exact hd s
  | cons s0 rest =>
    simp only []
    have hd2 : ∀ t, 0 ≤ updMap (updMap dist s0.id ⊤)
        (((s0 :: rest).getLast (List.cons_ne_nil s0 rest)).id) ⊤ t := by
      intro t
      by_cases h1 : t = ((s0 :: rest).getLast (List.cons_ne_nil s0 rest)).id
      · subst h1; rw [updMap_same]; exact le_top
      · rw [updMap_ne _ _ _ h1]
        by_cases h2 : t = s0.id
        · subst h2; rw [updMap_same]; exact le_top
        · rw [updMap_ne _ _ _ h2]; exact hd t
    split
    · exact hd2 s
    · rename_i hrange
      have hr : (0 : ℚ) < objAt s0 m -
          objAt ((s0 :: rest).getLast (List.cons_ne_nil s0 rest)) m :=
        lt_of_lt_of_le eps10_pos (not_lt.mp hrange)
      exact foldl_condAddUpd_nonneg
        (fun i => i = 0 ∨ i = (s0 :: rest).length - 1)
        (fun i => ((s0 :: rest).getD i s0).id)
        (fun i => (((|objAt ((s0 :: rest).getD (i + 1) s0) m -
          objAt ((s0 :: rest).getD (i - 1) s0) m| /
          (objAt s0 m - objAt ((s0 :: rest).getLast (List.cons_ne_nil s0 rest)) m)) : ℚ) :
          WithTop ℚ))
        (fun i => by
          rw [← WithTop.coe_zero, WithTop.coe_le_coe]
          exact div_nonneg (abs_nonneg _) (le_of_lt hr))
        (List.range (s0 :: rest).length) _ hd2 s

theorem axisPass_top (front : List (Genome π)) (m : ℕ) (sense : ObjectiveSense)
    (dist : String → WithTop ℚ) (s : String) (hd : dist s = ⊤) :
    axisPass front m sense dist s = ⊤ := by
  unfold axisPass
  cases hms : front.mergeSort (axisLe m sense) with
  | nil => exact hd
  | cons s0 rest =>
    simp only []
    have hd2 : updMap (updMap dist s0.id ⊤)
        (((s0 :: rest).getLast (List.cons_ne_nil s0 rest)).id) ⊤ s = ⊤ := by
      by_cases h1 : s = ((s0 :: rest).getLast (List.cons_ne_nil s0 rest)).id
      · subst h1; rw [updMap_same]
      · rw [updMap_ne _ _ _ h1]
        by_cases h2 : s = s0.id
        · subst h2; rw [updMap_same]
        · rw [updMap_ne _ _ _ h2]; exact hd
    split
    · exact hd2
    · exact foldl_condAddUpd_top
        (fun i => i = 0 ∨ i = (s0 :: rest).length - 1)
        (fun i => ((s0 :: rest).getD i s0).id)
        (fun i => (((|objAt ((s0 :: rest).getD (i + 1) s0) m -
          objAt ((s0 :: rest).getD (i - 1) s0) m| /
          (objAt s0 m - objAt ((s0 :: rest).getLast (List.cons_ne_nil s0 rest)) m)) : ℚ) :
          WithTop ℚ))
        (List.range (s0 :: rest).length) _ s hd2

theorem axisPass_endpoints_top (front : List (Genome π)) (m : ℕ)
    (sense : ObjectiveSense) (dist : String → WithTop ℚ)
    {s0 : Genome π} {rest : List (Genome π)}
    (hms : front.mergeSort (axisLe m sense) = s0 :: rest) :
    axisPass front m sense dist s0.id = ⊤ ∧
    axisPass front m sense dist (((s0 :: rest).getLast (List.cons_ne_nil s0 rest)).id) = ⊤ := by
  unfold axisPass
  rw [hms]
  simp only []
  have htop : ∀ t, (t = s0.id ∨ t = ((s0 :: rest).getLast (List.cons_ne_nil s0 rest)).id) →
      updMap (updMap dist s0.id ⊤)
        (((s0 :: rest).getLast (List.cons_ne_nil s0 rest)).id) ⊤ t = ⊤ := by
    intro t ht
    by_cases h1 : t = ((s0 :: rest).getLast (List.cons_ne_nil s0 rest)).id
    · subst h1; rw [updMap_same]
    · rcases ht with h2 | h2
      · subst h2; rw [updMap_ne _ _ _ h1, updMap_same]
      · exact absurd h2 h1
  constructor
  · split
    · exact htop _ (Or.inl rfl)
    · exact foldl_condAddUpd_top _ _ _ _ _ _ (htop _ (Or.inl rfl))
  · split
    · exact htop _ (Or.inr rfl)
    · exact foldl_condAddUpd_top _ _ _ _ _ _ (htop _ (Or.inr rfl))

theorem axisPass_skip_of_small_range (front : List (Genome π)) (m : ℕ)
    (sense : ObjectiveSense) (dist : String → WithTop ℚ)
    {s0 : Genome π} {rest : List (Genome π)}
    (hms : front.mergeSort (axisLe m sense) = s0 :: rest)
    (hsmall : objAt s0 m - objAt ((s0 :: rest).getLast (List.cons_ne_nil s0 rest)) m < eps10)
    (s : String) (h1 : s ≠ s0.id)
    (h2 : s ≠ ((s0 :: rest).getLast (List.cons_ne_nil s0 rest)).id) :
    axisPass front m sense dist s = dist s := by
  unfold axisPass
  rw [hms]
  simp only []
  rw [if_pos hsmall, updMap_ne _ _ _ h2, updMap_ne _ _ _ h1]

theorem specsFold_nonneg (front : List (Genome π)) :
    ∀ (es : List (ℕ × ObjectiveSpec)) (d : String → WithTop ℚ),
    (∀ s, 0 ≤ d s) → ∀ s,
    0 ≤ (es.foldl (fun d ms => axisPass front ms.1 ms.2.sense d) d) s := by
  intro es
  induction es with
  | nil => intro d hd s; exact hd s
  | cons e rest ih =>
    intro d hd s
    rw [List.foldl_cons]
    exact ih _ (axisPass_nonneg front e.1 e.2.sense d hd) s

theorem specsFold_top (front : List (Genome π)) :
    ∀ (es : List (ℕ × ObjectiveSpec)) (d : String → WithTop ℚ) (s : String),
    d s = ⊤ → (es.foldl (fun d ms => axisPass front ms.1 ms.2.sense d) d) s = ⊤ := by
  intro es
  induction es with
  | nil => intro d s hd; exact hd
  | cons e rest ih =>
    intro d s hd
    rw [List.foldl_cons]
    exact ih _ s (axisPass_top front e.1 e.2.sense d s hd)

theorem initFold_nonneg :
    ∀ (l : List (Genome π)) (d : String → WithTop ℚ), (∀ s, 0 ≤ d s) →
    ∀ s, 0 ≤ (l.foldl (fun d g => updMap d g.id 0) d) s := by
  intro l
  induction l with
  | nil => intro d hd s; exact hd s
  | cons g rest ih =>
    intro d hd s
    rw [List.foldl_cons]
    apply ih
    intro t
    by_cases ht : t = g.id
    · subst ht; rw [updMap_same]
    · rw [updMap_ne _ _ _ ht]; exact hd t

theorem head_ne_getLast_of_nodup_map {l : List (Genome π)}
    (hnd : (l.map (fun g => g.id)).Nodup) {s0 : Genome π} {rest : List (Genome π)}
    (hl : l = s0 :: rest) (hlen : rest ≠ []) :
    s0.id ≠ ((s0 :: rest).getLast (List.cons_ne_nil s0 rest)).id := by
  subst hl
  rw [List.map_cons, List.nodup_cons] at hnd
  intro heq
  apply hnd.1
  rw [List.getLast_cons hlen] at heq
  rw [heq]
  exact List.mem_map_of_mem _ (List.getLast_mem hlen)

end CrowdingLemmas

/-- C9.  On a front with pairwise-distinct ids (and the run's
non-empty axis list): a front of size at most 2 gets crowding `+∞` on
every member; a front of size at least 3 ends with at least two
members (of distinct ids) at `+∞` and every member's crowding
non-negative; and an axis whose value range over the front is below
`1e-10` leaves every entry other than its two boundary entries
untouched. -/
theorem crowdingDistance_props {π : Type} (specs : List ObjectiveSpec)
    (front : List (Genome π))
    (hnd : (front.map (fun g => g.id)).Nodup) (hspecs : specs ≠ []) :
    (front.length ≤ 2 → ∀ g ∈ (crowdingDistance front specs).2, g.crowding = some ⊤) ∧
    (3 ≤ front.length →
      (∃ g1 ∈ (crowdingDistance front specs).2, ∃ g2 ∈ (crowdingDistance front specs).2,
        g1.id ≠ g2.id ∧ g1.crowding = some ⊤ ∧ g2.crowding = some ⊤) ∧
      (∀ g ∈ (crowdingDistance front specs).2, ∃ c, g.crowding = some c ∧ 0 ≤ c)) ∧
    (∀ (m : ℕ) (sense : ObjectiveSense) (dist : String → WithTop ℚ)
      (s0 : Genome π) (rest : List (Genome π)),
      front.mergeSort (axisLe m sense) = s0 :: rest →
      objAt s0 m - objAt ((s0 :: rest).getLast (List.cons_ne_nil s0 rest)) m < eps10 →
      ∀ s, s ≠ s0.id → s ≠ ((s0 :: rest).getLast (List.cons_ne_nil s0 rest)).id →
        axisPass front m sense dist s = dist s) := by
  refine ⟨?_, ?_, ?_⟩
  · intro hle g hg
    by_cases h0 : front.length = 0
    · rw [List.length_eq_zero.mp h0] at hg
      simp [crowdingDistance] at hg
    · simp only [crowdingDistance, if_neg h0, if_pos hle] at hg
      rw [List.mem_map] at hg
      obtain ⟨b, _, rfl⟩ := hg
      rfl
  · intro h3
    have h0 : ¬ (front.length = 0) := by omega
    have h2 : ¬ (front.length ≤ 2) := by omega
    have hbase : ∀ s, (0 : WithTop ℚ) ≤
        (front.foldl (fun d g => updMap d g.id 0) (fun _ => 0)) s :=
      initFold_nonneg front (fun _ => 0) (fun _ => le_refl 0)
    constructor
    · obtain ⟨sp, srest, rfl⟩ : ∃ sp srest, specs = sp :: srest := by
        cases specs with
        | nil => exact absurd rfl hspecs
        | cons a l => exact ⟨a, l, rfl⟩
      cases hms : front.mergeSort (axisLe 0 sp.sense) with
      | nil =>
        have : (front.mergeSort (axisLe 0 sp.sense)).length = front.length :=
          List.length_mergeSort front
        rw [hms] at this
        simp at this
        omega
      | cons s0 rest =>
        have hlen : rest ≠ [] := by
          intro hr
          have : (front.mergeSort (axisLe 0 sp.sense)).length = front.length :=
            List.length_mergeSort front
          rw [hms, hr] at this
          simp at this
          omega
        have hndsorted : ((s0 :: rest).map (fun g => g.id)).Nodup := by
          rw [← hms]
          exact (((List.mergeSort_perm front (axisLe 0 sp.sense)).map
            (fun g => g.id)).nodup_iff).mpr hnd
        have hne : s0.id ≠ ((s0 :: rest).getLast (List.cons_ne_nil s0 rest)).id :=
          head_ne_getLast_of_nodup_map hndsorted rfl hlen
        have hmem0 : s0 ∈ front := by
          apply (List.mergeSort_perm front (axisLe 0 sp.sense)).mem_iff.mp
          rw [hms]
          exact List.mem_cons_self s0 rest
        have hmemL : (s0 :: rest).getLast (List.cons_ne_nil s0 rest) ∈ front := by
          apply (List.mergeSort_perm front (axisLe 0 sp.sense)).mem_iff.mp
          rw [hms]
          exact List.getLast_mem (List.cons_ne_nil s0 rest)
        have hfold : ∀ s, axisPass front 0 sp.sense
            (front.foldl (fun d g => updMap d g.id 0) (fun _ => 0)) s = ⊤ →
            ((sp :: srest).enum.foldl (fun d ms => axisPass front ms.1 ms.2.sense d)
              (front.foldl (fun d g => updMap d g.id 0) (fun _ => 0))) s = ⊤ := by
          intro s hs
          rw [List.enum_cons, List.foldl_cons]
          exact specsFold_top front _ _ s hs
        have hend := axisPass_endpoints_top front 0 sp.sense
          (front.foldl (fun d g => updMap d g.id 0) (fun _ => 0)) hms
        simp only [crowdingDistance, if_neg h0, if_neg h2]
        refine ⟨_, List.mem_map_of_mem _ hmem0, _, List.mem_map_of_mem _ hmemL, ?_, ?_, ?_⟩
        · exact hne
        · simp only []
          rw [hfold s0.id hend.1]
        · simp only []
          rw [hfold _ hend.2]
    · intro g hg
      simp only [crowdingDistance, if_neg h0, if_neg h2] at hg
      rw [List.mem_map] at hg
      obtain ⟨b, _, rfl⟩ := hg
      refine ⟨_, rfl, ?_⟩
      exact specsFold_nonneg front _ _ hbase b.id
  · intro m sense dist s0 rest hms hsmall s h1 h2
    exact axisPass_skip_of_small_range front m sense dist hms hsmall s h1 h2

/-- Witness for C9 on a concrete three-member front over the single
`max` axis. -/
theorem crowdingDistance_props_witness :
    ((([gA, gB, gC].map (fun g => g.id)).Nodup ∧ specsM ≠ []) ∧ 3 ≤ [gA, gB, gC].length) ∧
    ((∃ g1 ∈ (crowdingDistance [gA, gB, gC] specsM).2,
        ∃ g2 ∈ (crowdingDistance [gA, gB, gC] specsM).2,
        g1.id ≠ g2.id ∧ g1.crowding = some ⊤ ∧ g2.crowding = some ⊤) ∧
      (∀ g ∈ (crowdingDistance [gA, gB, gC] specsM).2,
        ∃ c, g.crowding = some c ∧ 0 ≤ c)) :=
  ⟨⟨⟨by decide, by decide⟩, by decide⟩,
    (crowdingDistance_props specsM [gA, gB, gC] (by decide) (by decide)).2.1 (by decide)⟩

section SortFoldLemmas

variable {π : Type}

theorem idCount_nil (s : String) : idCount ([] : List (Genome π)) s = 0 := rfl

theorem idCount_cons (q : Genome π) (l : List (Genome π)) (s : String) :
    idCount (q :: l) s = idCount l s + (if q.id = s then 1 else 0) := by
  unfold idCount
  rw [List.map_cons, List.count_cons]
  simp [beq_iff_eq]

theorem idCount_append (l1 l2 : List (Genome π)) (s : String) :
    idCount (l1 ++ l2) s = idCount l1 s + idCount l2 s := by
  unfold idCount
  rw [List.map_append, List.count_append]

theorem setRank_id (g : Genome π) (r : ℕ) : (setRank g r).id = g.id := rfl

theorem stepQ_foldl (pop : List (Genome π))
    (hinj : ∀ p ∈ pop, ∀ p' ∈ pop, p.id = p'.id → p = p') (i : ℕ) :
    ∀ (L : List (Genome π)) (cnt : String → ℤ) (acc : List (Genome π)),
    (∀ q ∈ L, q ∈ pop) →
    ((L.foldl (stepQ i) (cnt, acc)).1 = fun s => cnt s - (idCount L s : ℤ)) ∧
    (∀ g, g ∈ (L.foldl (stepQ i) (cnt, acc)).2 ↔ g ∈ acc ∨
      ∃ q, q ∈ pop ∧ g = setRank q (i + 1) ∧ 1 ≤ cnt q.id ∧
        cnt q.id ≤ (idCount L q.id : ℤ)) ∧
    (∀ s, idCount (L.foldl (stepQ i) (cnt, acc)).2 s = idCount acc s +
      (if 1 ≤ cnt s ∧ cnt s ≤ (idCount L s : ℤ) then 1 else 0)) := by
  intro L
  induction L with
  | nil =>
    intro cnt acc _
    refine ⟨funext fun s => by simp [idCount_nil], fun g => ?_, fun s => ?_⟩
    · simp only [List.foldl_nil]
      constructor
      · intro h; exact Or.inl h
      · rintro (h | ⟨q, _, _, h1, h2⟩)
        · exact h
        · rw [idCount_nil] at h2
          exfalso
          omega
    · simp only [List.foldl_nil, idCount_nil]
      have hno : ¬ (1 ≤ cnt s ∧ cnt s ≤ ((0 : ℕ) : ℤ)) := by
        push_cast
        omega
      rw [if_neg hno]
      omega
  | cons q L ih =>
    intro cnt acc hL
    have hq : q ∈ pop := hL q (List.mem_cons_self q L)
    have hL' : ∀ q' ∈ L, q' ∈ pop := fun q' h => hL q' (List.mem_cons_of_mem q h)
    rw [List.foldl_cons]
    by_cases hc : cnt q.id - 1 = 0
    · have hstep : stepQ i (cnt, acc) q =
          ((fun s => if s = q.id then cnt q.id - 1 else cnt s),
           acc ++ [setRank q (i + 1)]) := by
        simp [stepQ, hc]
      rw [hstep]
      obtain ⟨ih1, ih2, ih3⟩ := ih (fun s => if s = q.id then cnt q.id - 1 else cnt s)
        (acc ++ [setRank q (i + 1)]) hL'
      refine ⟨?_, ?_, ?_⟩
      · rw [ih1]
        funext s
        by_cases hs : s = q.id
        · subst hs
          simp only [idCount_cons, eq_self_iff_true, if_true]
          push_cast
          omega
        · simp only [idCount_cons, if_neg hs,
            if_neg (show ¬ (q.id = s) from fun h => hs h.symm)]
          push_cast
          omega
      · intro g
        rw [ih2 g]
        constructor
        · rintro (hacc | ⟨q', hq', rfl, h1, h2⟩)
          · rw [List.mem_append] at hacc
            rcases hacc with h | h
            · exact Or.inl h
            · simp only [List.mem_singleton] at h
              refine Or.inr ⟨q, hq, h, by omega, ?_⟩
              simp only [idCount_cons, eq_self_iff_true, if_true]
              push_cast
              omega
          · by_cases hid : q'.id = q.id
            · rw [hid] at h1
              simp only [eq_self_iff_true, if_true] at h1
              exfalso
              omega
            · simp only [if_neg hid] at h1 h2
              refine Or.inr ⟨q', hq', rfl, h1, ?_⟩
              simp only [idCount_cons, if_neg (show ¬ (q.id = q'.id) from fun h => hid h.symm)]
              push_cast
              omega
        · rintro (hacc | ⟨q', hq', rfl, h1, h2⟩)
          · exact Or.inl (List.mem_append.mpr (Or.inl hacc))
          · by_cases hid : q'.id = q.id
            · have hqq : q' = q := hinj q' hq' q hq hid
              subst hqq
              exact Or.inl (List.mem_append.mpr (Or.inr (by simp)))
            · simp only [idCount_cons,
                if_neg (show ¬ (q.id = q'.id) from fun h => hid h.symm)] at h2
              refine Or.inr ⟨q', hq', rfl, ?_, ?_⟩
              · simp only [if_neg hid]
                exact h1
              · simp only [if_neg hid]
                push_cast at h2 ⊢
                omega
      · intro s
        rw [ih3 s]
        by_cases hs : s = q.id
        · subst hs
          simp only [idCount_append, idCount_cons, idCount_nil, setRank_id,
            eq_self_iff_true, if_true]
          push_cast
          split_ifs <;> omega
        · simp only [idCount_append, idCount_cons, idCount_nil, setRank_id, if_neg hs,
            if_neg (show ¬ (q.id = s) from fun h => hs h.symm)]
          push_cast
          split_ifs <;> omega
    · have hstep : stepQ i (cnt, acc) q =
          ((fun s => if s = q.id then cnt q.id - 1 else cnt s), acc) := by
        simp [stepQ, hc]
      rw [hstep]
      obtain ⟨ih1, ih2, ih3⟩ := ih (fun s => if s = q.id then cnt q.id - 1 else cnt s)
        acc hL'
      refine ⟨?_, ?_, ?_⟩
      · rw [ih1]
        funext s
        by_cases hs : s = q.id
        · subst hs
          simp only [idCount_cons, eq_self_iff_true, if_true]
          push_cast
          omega
        · simp only [idCount_cons, if_neg hs,
            if_neg (show ¬ (q.id = s) from fun h => hs h.symm)]
          push_cast
          omega
      · intro g
        rw [ih2 g]
        constructor
        · rintro (hacc | ⟨q', hq', rfl, h1, h2⟩)
          · exact Or.inl hacc
          · by_cases hid : q'.id = q.id
            · rw [hid] at h1 h2
              simp only [eq_self_iff_true, if_true] at h1 h2
              refine Or.inr ⟨q', hq', rfl, by rw [hid]; omega, ?_⟩
              rw [hid]
              simp only [idCount_cons, eq_self_iff_true, if_true]
              push_cast
              omega
            · simp only [if_neg hid] at h1 h2
              refine Or.inr ⟨q', hq', rfl, h1, ?_⟩
              simp only [idCount_cons, if_neg (show ¬ (q.id = q'.id) from fun h => hid h.symm)]
              push_cast
              omega
        · rintro (hacc | ⟨q', hq', rfl, h1, h2⟩)
          · exact Or.inl hacc
          · by_cases hid : q'.id = q.id
            · rw [hid] at h1 h2
              simp only [idCount_cons, eq_self_iff_true, if_true] at h2
              refine Or.inr ⟨q', hq', rfl, ?_, ?_⟩
              · rw [hid]
                simp only [eq_self_iff_true, if_true]
                omega
              · rw [hid]
                simp only [eq_self_iff_true, if_true]
                push_cast at h2 ⊢
                omega
            · simp only [idCount_cons,
                if_neg (show ¬ (q.id = q'.id) from fun h => hid h.symm)] at h2
              refine Or.inr ⟨q', hq', rfl, ?_, ?_⟩
              · simp only [if_neg hid]
                exact h1
              · simp only [if_neg hid]
                push_cast at h2 ⊢
                omega
      · intro s
        rw [ih3 s]
        by_cases hs : s = q.id
        · subst hs
          simp only [idCount_cons, eq_self_iff_true, if_true]
          push_cast
          split_ifs <;> omega
        · simp only [idCount_cons, if_neg hs,
            if_neg (show ¬ (q.id = s) from fun h => hs h.symm)]
          push_cast
          split_ifs <;> omega

end SortFoldLemmas

section SortBridgeLemmas

variable {π : Type}

theorem mem_Sof {specs : List ObjectiveSpec} {pop : List (Genome π)}
    {p q : Genome π} :
    q ∈ Sof specs pop p ↔ q ∈ pop ∧ ¬ (p.id = q.id) ∧ dominatesT specs p q = true := by
  simp [Sof, List.mem_filter, beq_iff_eq, and_assoc]

theorem mem_dominatorsIn {specs : List ObjectiveSpec} {pop : List (Genome π)}
    {p q : Genome π} :
    p ∈ dominatorsIn specs pop q ↔
      p ∈ pop ∧ ¬ (p.id = q.id) ∧ dominatesT specs p q = true := by
  simp [dominatorsIn, List.mem_filter, beq_iff_eq, and_assoc]

theorem Sof_ids_nodup {specs : List ObjectiveSpec} {pop : List (Genome π)}
    (hnd : (pop.map (fun g => g.id)).Nodup) (p : Genome π) :
    ((Sof specs pop p).map (fun g => g.id)).Nodup :=
  hnd.sublist ((List.filter_sublist pop).map (fun g => g.id))

theorem count_nodup (l : List String) (h : l.Nodup) (s : String) :
    l.count s = if s ∈ l then 1 else 0 := by
  by_cases hm : s ∈ l
  · rw [if_pos hm]
    exact List.count_eq_one_of_mem h hm
  · rw [if_neg hm]
    exact List.count_eq_zero_of_not_mem hm

theorem idCount_Sof {specs : List ObjectiveSpec} {pop : List (Genome π)}
    (hnd : (pop.map (fun g => g.id)).Nodup) (p : Genome π) {q : Genome π}
    (hq : q ∈ pop) :
    idCount (Sof specs pop p) q.id =
      if ¬ (p.id = q.id) ∧ dominatesT specs p q = true then 1 else 0 := by
  have hinj := List.inj_on_of_nodup_map hnd
  by_cases hc : ¬ (p.id = q.id) ∧ dominatesT specs p q = true
  · rw [if_pos hc]
    unfold idCount
    have hmem : q ∈ Sof specs pop p := mem_Sof.mpr ⟨hq, hc.1, hc.2⟩
    rw [count_nodup _ (Sof_ids_nodup hnd p), if_pos (List.mem_map_of_mem _ hmem)]
  · rw [if_neg hc]
    unfold idCount
    apply List.count_eq_zero_of_not_mem
    intro hmem
    rw [List.mem_map] at hmem
    obtain ⟨g, hg, hgid⟩ := hmem
    rw [mem_Sof] at hg
    have : g = q := hinj hg.1 hq hgid
    subst this
    exact hc ⟨hg.2.1, hg.2.2⟩

theorem idCount_flatten_Sof {specs : List ObjectiveSpec} {pop : List (Genome π)}
    (hnd : (pop.map (fun g => g.id)).Nodup) {q : Genome π} (hq : q ∈ pop) :
    ∀ current : List (Genome π),
    idCount ((current.map (Sof specs pop)).flatten) q.id =
      (current.filter (fun p => !(p.id == q.id) && dominatesT specs p q)).length := by
  intro current
  induction current with
  | nil => rfl
  | cons p rest ih =>
    rw [List.map_cons, List.flatten_cons, idCount_append, ih, List.filter_cons]
    rw [idCount_Sof hnd p hq]
    by_cases hc : ¬ (p.id = q.id) ∧ dominatesT specs p q = true
    · rw [if_pos hc, if_pos (by simp [beq_iff_eq]; exact ⟨hc.1, hc.2⟩)]
      simp [Nat.add_comm]
    · rw [if_neg hc, if_neg (by
        simp only [Bool.and_eq_true, Bool.not_eq_true', beq_eq_false_iff_ne]
        intro h
        exact hc ⟨h.1, h.2⟩)]
      omega

theorem mem_flatten_Sof {specs : List ObjectiveSpec} {pop : List (Genome π)}
    {current : List (Genome π)} {e : Genome π} :
    e ∈ (current.map (Sof specs pop)).flatten ↔ ∃ p ∈ current, e ∈ Sof specs pop p := by
  simp [List.mem_flatten]

theorem foldl_inner_flatten {α β γ : Type} (f : γ → List α) (g : β → α → β) :
    ∀ (l : List γ) (init : β),
    l.foldl (fun st p => (f p).foldl g st) init = ((l.map f).flatten).foldl g init := by
  intro l
  induction l with
  | nil => intro init; rfl
  | cons p rest ih =>
    intro init
    rw [List.foldl_cons, List.map_cons, List.flatten_cons, List.foldl_append, ih]

theorem buildNext_eq_foldl (specs : List ObjectiveSpec) (pop : List (Genome π))
    (i : ℕ) (cnt : String → ℤ) (front : List (Genome π)) :
    buildNext specs pop i cnt front =
      ((front.map (Sof specs pop)).flatten).foldl (stepQ i) (cnt, []) := by
  unfold buildNext
  exact foldl_inner_flatten (Sof specs pop) (stepQ i) front (cnt, [])

theorem exists_undominated (specs : List ObjectiveSpec) :
    ∀ U : List (Genome π), U ≠ [] →
    ∃ q ∈ U, ∀ p ∈ U, dominatesT specs p q = false := by
  intro U
  induction U with
  | nil => intro h; exact absurd rfl h
  | cons a U ih =>
    intro _
    cases U with
    | nil =>
      refine ⟨a, List.mem_cons_self a [], ?_⟩
      intro p hp
      rw [List.mem_singleton] at hp
      subst hp
      exact dominatesT_irrefl specs p
    | cons b V =>
      obtain ⟨q0, hq0, hmax⟩ := ih (by simp)
      by_cases hd : dominatesT specs a q0 = true
      · refine ⟨a, List.mem_cons_self a (b :: V), ?_⟩
        intro p hp
        rcases List.mem_cons.mp hp with h | h
        · subst h
          exact dominatesT_irrefl specs p
        · by_contra hcon
          rw [Bool.not_eq_false] at hcon
          have := dominatesT_trans hcon hd
          have := hmax p h
          simp_all
      · refine ⟨q0, List.mem_cons_of_mem a hq0, ?_⟩
        intro p hp
        rcases List.mem_cons.mp hp with h | h
        · subst h
          rwa [Bool.not_eq_true] at hd
        · exact hmax p h

theorem length_filter_mono {α : Type} (A B : α → Bool) :
    ∀ l : List α, (∀ x ∈ l, A x = true → B x = true) →
    (l.filter A).length ≤ (l.filter B).length := by
  intro l
  induction l with
  | nil => intro _; exact le_refl 0
  | cons x rest ih =>
    intro h
    have hrest := ih (fun y hy => h y (List.mem_cons_of_mem x hy))
    rw [List.filter_cons, List.filter_cons]
    by_cases hA : A x = true
    · rw [if_pos hA, if_pos (h x (List.mem_cons_self x rest) hA)]
      simpa using hrest
    · rw [if_neg hA]
      split
      · exact le_trans hrest (by simp)
      · exact hrest

theorem filter_imp_of_length_le {α : Type} (A B : α → Bool) :
    ∀ l : List α, (∀ x ∈ l, A x = true → B x = true) →
    (l.filter B).length ≤ (l.filter A).length →
    ∀ x ∈ l, B x = true → A x = true := by
  intro l
  induction l with
  | nil => intro _ _ x hx; exact absurd hx (List.not_mem_nil x)
  | cons y rest ih =>
    intro himp hlen x hx hB
    have himp' := fun z hz => himp z (List.mem_cons_of_mem y hz)
    rcases List.mem_cons.mp hx with h | h
    · subst h
      by_contra hA
      rw [Bool.not_eq_true] at hA
      rw [List.filter_cons, List.filter_cons, hA, if_pos hB] at hlen
      simp only [Bool.false_eq_true, if_false] at hlen
      have := length_filter_mono A B rest himp'
      simp at hlen
      omega
    · apply ih himp' ?_ x h hB
      rw [List.filter_cons, List.filter_cons] at hlen
      by_cases hAy : A y = true
      · rw [if_pos hAy, if_pos (himp y (List.mem_cons_self y rest) hAy)] at hlen
        simpa using hlen
      · rw [if_neg hAy] at hlen
        split at hlen
        · simp at hlen
          omega
        · exact hlen

theorem length_filter_or {α : Type} (A B C : α → Bool) :
    ∀ l : List α, (∀ x ∈ l, A x = (B x || C x)) →
    (∀ x ∈ l, ¬ (B x = true ∧ C x = true)) →
    (l.filter A).length = (l.filter B).length + (l.filter C).length := by
  intro l
  induction l with
  | nil => intro _ _; rfl
  | cons x rest ih =>
    intro h1 h2
    have hrest := ih (fun y hy => h1 y (List.mem_cons_of_mem x hy))
      (fun y hy => h2 y (List.mem_cons_of_mem x hy))
    rw [List.filter_cons, List.filter_cons, List.filter_cons]
    have hx1 := h1 x (List.mem_cons_self x rest)
    have hx2 := h2 x (List.mem_cons_self x rest)
    rw [hx1]
    by_cases hB : B x = true
    · have hC : C x = false := by
        cases hCx : C x
        · rfl
        · exact absurd ⟨hB, hCx⟩ hx2
      rw [hB, hC]
      simp only [Bool.true_or, eq_self_iff_true, if_true, Bool.false_eq_true, if_false,
        List.length_cons]
      omega
    · rw [Bool.not_eq_true] at hB
      by_cases hC : C x = true
      · rw [hB, hC]
        simp only [Bool.false_or, eq_self_iff_true, if_true, Bool.false_eq_true, if_false,
          List.length_cons]
        omega
      · rw [Bool.not_eq_true] at hC
        rw [hB, hC]
        simp only [Bool.or_self, Bool.false_eq_true, if_false]
        exact hrest

end SortBridgeLemmas

section SortStepLemmas

variable {π : Type}

theorem contains_true (l : List String) (s : String) : l.contains s = true ↔ s ∈ l := by
  simp

theorem contains_false (l : List String) (s : String) : l.contains s = false ↔ s ∉ l := by
  simp

theorem contains_app (l1 l2 : List String) (s : String) :
    (l1 ++ l2).contains s = (l1.contains s || l2.contains s) := by
  simp [List.contains_eq_any_beq, List.any_append]

theorem dominatesT_setRank_left (specs : List ObjectiveSpec) (g : Genome π) (r : ℕ)
    (b : Genome π) : dominatesT specs (setRank g r) b = dominatesT specs g b := rfl

theorem length_filter_eq_of_id_iff (l1 l2 : List (Genome π)) (P Q : Genome π → Bool)
    (h1 : (l1.map (fun g => g.id)).Nodup) (h2 : (l2.map (fun g => g.id)).Nodup)
    (hiff : ∀ s : String, (∃ x ∈ l1, x.id = s ∧ P x = true) ↔
      (∃ y ∈ l2, y.id = s ∧ Q y = true)) :
    (l1.filter P).length = (l2.filter Q).length := by
  have n1 : ((l1.filter P).map (fun g => g.id)).Nodup :=
    h1.sublist ((List.filter_sublist l1).map (fun g => g.id))
  have n2 : ((l2.filter Q).map (fun g => g.id)).Nodup :=
    h2.sublist ((List.filter_sublist l2).map (fun g => g.id))
  have hperm : ((l1.filter P).map (fun g => g.id)).Perm ((l2.filter Q).map (fun g => g.id)) := by
    rw [List.perm_ext_iff_of_nodup n1 n2]
    intro s
    simp only [List.mem_map, List.mem_filter]
    constructor
    · rintro ⟨x, ⟨hx, hPx⟩, rfl⟩
      obtain ⟨y, hy, hys, hQy⟩ := (hiff x.id).mp ⟨x, hx, rfl, hPx⟩
      exact ⟨y, ⟨hy, hQy⟩, hys⟩
    · rintro ⟨y, ⟨hy, hQy⟩, rfl⟩
      obtain ⟨x, hx, hxs, hPx⟩ := (hiff y.id).mpr ⟨y, hy, rfl, hQy⟩
      exact ⟨x, ⟨hx, hPx⟩, hxs⟩
  have := hperm.length_eq
  simpa using this

theorem count_filter_or (l : List String) (A B C : String → Bool)
    (h1 : ∀ x ∈ l, A x = (B x || C x)) (h2 : ∀ x ∈ l, ¬ (B x = true ∧ C x = true))
    (s : String) :
    (l.filter A).count s = (l.filter B).count s + (l.filter C).count s := by
  have key : ∀ D : String → Bool, (l.filter D).count s =
      (l.filter (fun t => (t == s) && D t)).length := by
    intro D
    rw [List.count, List.countP_eq_length_filter, List.filter_filter]
  rw [key A, key B, key C]
  apply length_filter_or
  · intro x hx
    rw [h1 x hx]
    cases B x <;> cases C x <;> cases (x == s) <;> rfl
  · intro x hx hand
    simp only [Bool.and_eq_true] at hand
    exact h2 x hx ⟨hand.1.2, hand.2.2⟩

theorem buildNext_spec (specs : List ObjectiveSpec) (pop : List (Genome π))
    (hnd : (pop.map (fun g => g.id)).Nodup)
    (i : ℕ) (cnt : String → ℤ) (current : List (Genome π)) (done : List String)
    (hdone_dom : ∀ q ∈ pop, q.id ∈ done → ∀ d ∈ dominatorsIn specs pop q, d.id ∈ done)
    (hcur : ∀ c ∈ current, ∃ p ∈ pop, c = setRank p i ∧
      ∀ d ∈ dominatorsIn specs pop p, d.id ∈ done)
    (hcur_nd : (current.map (fun g => g.id)).Nodup)
    (hdisj : ∀ c ∈ current, c.id ∉ done)
    (hcnt : ∀ q ∈ pop, q.id ∉ done → q.id ∉ current.map (fun g => g.id) →
      cnt q.id = (((dominatorsIn specs pop q).filter
        (fun p => !(done.contains p.id))).length : ℤ) ∧
      ((dominatorsIn specs pop q).filter (fun p => !(done.contains p.id))) ≠ []) :
    (∀ g, g ∈ (buildNext specs pop i cnt current).2 ↔
      ∃ q, q ∈ pop ∧ g = setRank q (i + 1) ∧ q.id ∉ done ∧
        q.id ∉ current.map (fun g => g.id) ∧
        (∀ d ∈ dominatorsIn specs pop q, d.id ∈ done ++ current.map (fun g => g.id))) ∧
    (((buildNext specs pop i cnt current).2.map (fun g => g.id)).Nodup) ∧
    (∀ q ∈ pop, q.id ∉ done ++ current.map (fun g => g.id) →
      q.id ∉ (buildNext specs pop i cnt current).2.map (fun g => g.id) →
      (buildNext specs pop i cnt current).1 q.id =
        (((dominatorsIn specs pop q).filter
          (fun p => !((done ++ current.map (fun g => g.id)).contains p.id))).length : ℤ) ∧
      ((dominatorsIn specs pop q).filter
        (fun p => !((done ++ current.map (fun g => g.id)).contains p.id))) ≠ []) := by
  have hinj := List.inj_on_of_nodup_map hnd
  have hLpop : ∀ e ∈ (current.map (Sof specs pop)).flatten, e ∈ pop := by
    intro e he
    rw [mem_flatten_Sof] at he
    obtain ⟨p, _, he⟩ := he
    exact (mem_Sof.mp he).1
  obtain ⟨hf1, hf2, hf3⟩ := stepQ_foldl pop hinj i
    ((current.map (Sof specs pop)).flatten) cnt [] hLpop
  rw [buildNext_eq_foldl]
  -- the number of current members dominating q, in population terms
  have hcross : ∀ q ∈ pop,
      (current.filter (fun p => !(p.id == q.id) && dominatesT specs p q)).length =
      ((dominatorsIn specs pop q).filter
        (fun p => (current.map (fun g => g.id)).contains p.id)).length := by
    intro q hq
    apply length_filter_eq_of_id_iff _ _ _ _ hcur_nd
      (hnd.sublist ((List.filter_sublist pop).map (fun g => g.id)))
    intro s
    constructor
    · rintro ⟨c, hc, rfl, hPc⟩
      obtain ⟨p0, hp0, rfl, _⟩ := hcur c hc
      rw [Bool.and_eq_true, Bool.not_eq_true', beq_eq_false_iff_ne] at hPc
      rw [dominatesT_setRank_left] at hPc
      refine ⟨p0, mem_dominatorsIn.mpr ⟨hp0, hPc.1, hPc.2⟩, rfl, ?_⟩
      rw [contains_true, List.mem_map]
      exact ⟨setRank p0 i, hc, rfl⟩
    · rintro ⟨d, hd, rfl, hQd⟩
      rw [contains_true, List.mem_map] at hQd
      obtain ⟨c, hc, hcd⟩ := hQd
      obtain ⟨p0, hp0, rfl, _⟩ := hcur c hc
      rw [setRank_id] at hcd
      rw [List.mem_filter, Bool.and_eq_true, Bool.not_eq_true', beq_eq_false_iff_ne] at hd
      have : p0 = d := hinj hp0 hd.1 hcd
      subst this
      refine ⟨setRank p0 i, hc, ?_, ?_⟩
      · rw [setRank_id]
      · rw [Bool.and_eq_true, Bool.not_eq_true', beq_eq_false_iff_ne]
        rw [dominatesT_setRank_left]
        exact ⟨hd.2.1, hd.2.2⟩
  have hLcount : ∀ q ∈ pop, idCount ((current.map (Sof specs pop)).flatten) q.id =
      ((dominatorsIn specs pop q).filter
        (fun p => (current.map (fun g => g.id)).contains p.id)).length := by
    intro q hq
    rw [idCount_flatten_Sof hnd hq current, hcross q hq]
  -- a genome whose id occurs in the processing list is unplaced
  have hLunplaced : ∀ q ∈ pop, 1 ≤ idCount ((current.map (Sof specs pop)).flatten) q.id →
      q.id ∉ done ∧ q.id ∉ current.map (fun g => g.id) := by
    intro q hq hge
    rw [hLcount q hq] at hge
    have hne : ((dominatorsIn specs pop q).filter
        (fun p => (current.map (fun g => g.id)).contains p.id)) ≠ [] := by
      intro h
      rw [h] at hge
      simp at hge
    obtain ⟨d, hd⟩ := List.exists_mem_of_ne_nil _ hne
    rw [List.mem_filter] at hd
    obtain ⟨hdmem, hdcur⟩ := hd
    rw [contains_true, List.mem_map] at hdcur
    obtain ⟨c, hc, hcd⟩ := hdcur
    constructor
    · intro hqdone
      have := hdone_dom q hq hqdone d hdmem
      obtain ⟨p0, _, rfl, _⟩ := hcur c hc
      rw [← hcd] at this
      exact hdisj _ hc this
    · intro hqcur
      rw [List.mem_map] at hqcur
      obtain ⟨c', hc', hc'q⟩ := hqcur
      obtain ⟨p1, hp1, rfl, hp1dom⟩ := hcur c' hc'
      have : p1 = q := hinj hp1 hq hc'q
      subst this
      obtain ⟨p0, hp0, rfl, _⟩ := hcur c hc
      have := hp1dom d hdmem
      rw [← hcd] at this
      exact hdisj _ hc this
  -- membership in the next front, in invariant terms
  have hmemiff : ∀ g, g ∈ ((current.map (Sof specs pop)).flatten.foldl (stepQ i) (cnt, [])).2 ↔
      ∃ q, q ∈ pop ∧ g = setRank q (i + 1) ∧ q.id ∉ done ∧
        q.id ∉ current.map (fun g => g.id) ∧
        (∀ d ∈ dominatorsIn specs pop q, d.id ∈ done ++ current.map (fun g => g.id)) := by
    intro g
    rw [hf2 g]
    constructor
    · rintro (h | ⟨q, hq, rfl, h1, h2⟩)
      · exact absurd h (List.not_mem_nil g)
      · have hunpl := hLunplaced q hq (by omega)
        obtain ⟨hqd, hqc⟩ := hunpl
        obtain ⟨hcq, hcne⟩ := hcnt q hq hqd hqc
        refine ⟨q, hq, rfl, hqd, hqc, ?_⟩
        rw [hLcount q hq] at h2
        rw [hcq] at h2
        have himp : ∀ d ∈ dominatorsIn specs pop q,
            (fun p => ((current.map (fun g => g.id)).contains p.id)) d = true →
            (fun p => !(done.contains p.id)) d = true := by
          intro d _ hd
          simp only [contains_true, List.mem_map] at hd
          simp only [Bool.not_eq_true', contains_false]
          obtain ⟨c, hc, hcd⟩ := hd
          rw [← hcd]
          exact hdisj c hc
        have hpoint := filter_imp_of_length_le _ _ (dominatorsIn specs pop q) himp
          (by exact_mod_cast h2)
        intro d hdmem
        rw [List.mem_append]
        by_cases hdd : d.id ∈ done
        · exact Or.inl hdd
        · have := hpoint d hdmem (by
            simp only [Bool.not_eq_true', contains_false]
            exact hdd)
          simp only [contains_true] at this
          exact Or.inr this
    · rintro ⟨q, hq, rfl, hqd, hqc, hdom⟩
      obtain ⟨hcq, hcne⟩ := hcnt q hq hqd hqc
      have hAPeqBP : ((dominatorsIn specs pop q).filter
          (fun p => !(done.contains p.id))).length =
          ((dominatorsIn specs pop q).filter
            (fun p => (current.map (fun g => g.id)).contains p.id)).length := by
        apply congrArg List.length
        apply List.filter_congr
        intro d hdmem
        have hd := hdom d hdmem
        rw [List.mem_append] at hd
        rcases hd with h | h
        · have hlhs : (!(done.contains d.id)) = false := by
            simp only [Bool.not_eq_false', contains_true]
            exact h
          have hrhs : ((current.map (fun g => g.id)).contains d.id) = false := by
            rw [contains_false, List.mem_map]
            rintro ⟨c, hc, hcd⟩
            rw [← hcd] at h
            exact hdisj c hc h
          rw [hlhs, hrhs]
        · have hnotdone : d.id ∉ done := by
            rw [List.mem_map] at h
            obtain ⟨c, hc, hcd⟩ := h
            rw [← hcd]
            exact hdisj c hc
          have hlhs : (!(done.contains d.id)) = true := by
            simp only [Bool.not_eq_true', contains_false]
            exact hnotdone
          have hrhs : ((current.map (fun g => g.id)).contains d.id) = true := by
            rw [contains_true]
            exact h
          rw [hlhs, hrhs]
      right
      refine ⟨q, hq, rfl, ?_, ?_⟩
      · rw [hcq]
        have := List.length_pos.mpr hcne
        exact_mod_cast this
      · rw [hLcount q hq, hcq, hAPeqBP]
  refine ⟨hmemiff, ?_, ?_⟩
  · rw [List.nodup_iff_count_le_one]
    intro s
    have := hf3 s
    have hz : idCount ([] : List (Genome π)) s = 0 := rfl
    rw [hz] at this
    have heq : List.count s
        (((current.map (Sof specs pop)).flatten.foldl (stepQ i) (cnt, [])).2.map
          (fun g => g.id)) =
        idCount ((current.map (Sof specs pop)).flatten.foldl (stepQ i) (cnt, [])).2 s := rfl
    rw [heq, this]
    split <;> omega
  · intro q hq hqd' hqn
    have hqd : q.id ∉ done := fun h => hqd' (List.mem_append.mpr (Or.inl h))
    have hqc : q.id ∉ current.map (fun g => g.id) :=
      fun h => hqd' (List.mem_append.mpr (Or.inr h))
    obtain ⟨hcq, hcne⟩ := hcnt q hq hqd hqc
    have hsplit : ((dominatorsIn specs pop q).filter
        (fun p => !(done.contains p.id))).length =
        ((dominatorsIn specs pop q).filter
          (fun p => (current.map (fun g => g.id)).contains p.id)).length +
        ((dominatorsIn specs pop q).filter
          (fun p => !((done ++ current.map (fun g => g.id)).contains p.id))).length := by
      apply length_filter_or
      · intro d _
        rw [contains_app]
        by_cases h1 : d.id ∈ done
        · have hc2 : ((current.map (fun g => g.id)).contains d.id) = false := by
            rw [contains_false, List.mem_map]
            rintro ⟨c, hc, hcd⟩
            rw [← hcd] at h1
            exact hdisj c hc h1
          have hd1 : done.contains d.id = true := contains_true done d.id |>.mpr h1
          rw [hd1, hc2]
          rfl
        · have hd1 : done.contains d.id = false := contains_false done d.id |>.mpr h1
          rw [hd1]
          cases hc2 : (current.map (fun g => g.id)).contains d.id <;> rfl
      · intro d _ ⟨hB, hC⟩
        rw [contains_true] at hB
        simp only [Bool.not_eq_true', contains_false, List.mem_append] at hC
        exact hC (Or.inr hB)
    constructor
    · rw [congrFun hf1 q.id, hcq, hLcount q hq]
      rw [hsplit]
      push_cast
      omega
    · intro hnil
      apply hqn
      have : setRank q (i + 1) ∈
          ((current.map (Sof specs pop)).flatten.foldl (stepQ i) (cnt, [])).2 := by
        rw [hmemiff]
        refine ⟨q, hq, rfl, hqd, hqc, ?_⟩
        intro d hdmem
        by_contra hcon
        have : d ∈ (dominatorsIn specs pop q).filter
            (fun p => !((done ++ current.map (fun g => g.id)).contains p.id)) := by
          rw [List.mem_filter]
          refine ⟨hdmem, ?_⟩
          simp only [Bool.not_eq_true', contains_false]
          exact hcon
        rw [hnil] at this
        exact absurd this (List.not_mem_nil d)
      exact List.mem_map_of_mem (fun g => g.id) this

end SortStepLemmas

section SortMainLemmas

variable {π : Type}

/-- Filtering on "id not in the empty done-list" keeps every genome. -/
theorem filter_contains_nil_genome (l : List (Genome π)) :
    l.filter (fun p => !(([] : List String).contains p.id)) = l := by
  induction l with
  | nil => rfl
  | cons a t ih =>
    rw [List.filter_cons,
      if_pos (show (!(([] : List String).contains a.id)) = true from rfl), ih]

/-- Filtering on "not in the empty done-list" keeps every id. -/
theorem filter_contains_nil_str (l : List String) :
    l.filter (fun t => !(([] : List String).contains t)) = l := by
  induction l with
  | nil => rfl
  | cons a t ih =>
    rw [List.filter_cons,
      if_pos (show (!(([] : List String).contains a)) = true from rfl), ih]

/-- With pairwise-distinct ids, looking a genome's own id up in the
population finds that genome (the JS `Map` keyed by id is faithful). -/
theorem find_id_self : ∀ (pop : List (Genome π)),
    (∀ p ∈ pop, ∀ p' ∈ pop, p.id = p'.id → p = p') →
    ∀ q ∈ pop, pop.find? (fun p => p.id == q.id) = some q := by
  intro pop
  induction pop with
  | nil =>
    intro _ q hq
    exact absurd hq (List.not_mem_nil q)
  | cons a rest ih =>
    intro hinj q hq
    by_cases hid : a.id = q.id
    · have haq : a = q := hinj a (List.mem_cons_self a rest) q hq hid
      rw [List.find?_cons_of_pos _ (by rw [beq_iff_eq]; exact hid), haq]
    · rw [List.find?_cons_of_neg _ (by rw [beq_iff_eq]; exact hid)]
      apply ih
      · intro p hp p' hp' h
        exact hinj p (List.mem_cons_of_mem a hp) p' (List.mem_cons_of_mem a hp') h
      · rcases List.mem_cons.mp hq with h | h
        · exact absurd (congrArg Genome.id h.symm) hid
        · exact h

/-- The first-loop counter of a population member is the number of its
dominators: the `else if` branch's extra `!dominates(p, q)` test is
redundant by asymmetry. -/
theorem nCount_eq (specs : List ObjectiveSpec) (pop : List (Genome π)) (p : Genome π) :
    nCount specs pop p = (dominatorsIn specs pop p).length := by
  unfold nCount dominatorsIn
  congr 1
  apply List.filter_congr
  intro q _
  by_cases hd : dominatesT specs q p = true
  · have hnd' : dominatesT specs p q = false := dominatesT_asymm hd
    rw [hd, hnd']
    simp only [Bool.not_false, Bool.and_true]
    cases hpq : (p.id == q.id)
    · have h2 : (q.id == p.id) = false := by
        rw [beq_eq_false_iff_ne] at hpq ⊢
        exact fun hh => hpq hh.symm
      rw [h2]
    · have h2 : (q.id == p.id) = true := by
        rw [beq_iff_eq] at hpq ⊢
        exact hpq.symm
      rw [h2]
  · have hd' : dominatesT specs q p = false := by
      cases h : dominatesT specs q p
      · rfl
      · exact absurd h hd
    rw [hd']
    simp

/-- With distinct ids, a population member has no dominators exactly
when no population entry dominates it. -/
theorem dominatorsIn_nil_iff {specs : List ObjectiveSpec} {pop : List (Genome π)}
    (hinj : ∀ p ∈ pop, ∀ p' ∈ pop, p.id = p'.id → p = p') {p : Genome π} (hp : p ∈ pop) :
    dominatorsIn specs pop p = [] ↔ ∀ q ∈ pop, dominatesT specs q p = false := by
  rw [dominatorsIn, List.filter_eq_nil_iff]
  constructor
  · intro h q hq
    by_cases hid : q.id = p.id
    · have hqp : q = p := hinj q hq p hp hid
      rw [hqp]
      exact dominatesT_irrefl specs p
    · have hq' := h q hq
      simp only [Bool.and_eq_true, Bool.not_eq_true', beq_eq_false_iff_ne, not_and] at hq'
      cases hdq : dominatesT specs q p with
      | false => rfl
      | true => exact absurd hdq (hq' hid)
  · intro h d hd
    simp [h d hd]

/-- Membership in front 0 before the while loop. -/
theorem front0_mem {specs : List ObjectiveSpec} {pop : List (Genome π)} {g : Genome π} :
    g ∈ front0 specs pop ↔ ∃ p ∈ pop, nCount specs pop p = 0 ∧ g = setRank p 0 := by
  unfold front0
  simp only [List.mem_map, List.mem_filter, beq_iff_eq]
  constructor
  · rintro ⟨p, ⟨hp, hn⟩, rfl⟩
    exact ⟨p, hp, hn, rfl⟩
  · rintro ⟨p, hp, hn, rfl⟩
    exact ⟨p, ⟨hp, hn⟩, rfl⟩

/-- Ids of front 0 are the ids of the undominated population members
(writing `rank` does not change ids). -/
theorem front0_ids (specs : List ObjectiveSpec) (pop : List (Genome π)) :
    (front0 specs pop).map (fun g => g.id) =
      (pop.filter (fun p => nCount specs pop p == 0)).map (fun g => g.id) := by
  unfold front0
  rw [List.map_map]
  rfl

/-- The initial counter map reads back the first-loop counter of each
population member (distinct ids make the id lookup faithful). -/
theorem initCnt_eq (specs : List ObjectiveSpec) (pop : List (Genome π))
    (hinj : ∀ p ∈ pop, ∀ p' ∈ pop, p.id = p'.id → p = p')
    (q : Genome π) (hq : q ∈ pop) :
    initCnt specs pop q.id = (nCount specs pop q : ℤ) := by
  unfold initCnt
  rw [find_id_self pop hinj q hq]

/-- Unfolding the while loop at positive fuel. -/
theorem sortLoop_succ (specs : List ObjectiveSpec) (pop : List (Genome π))
    (fuel : ℕ) (cnt : String → ℤ) (current : List (Genome π)) (i : ℕ) :
    sortLoop specs pop (fuel + 1) cnt current i =
      if current.isEmpty then []
      else current :: sortLoop specs pop fuel (buildNext specs pop i cnt current).1
        (buildNext specs pop i cnt current).2 (i + 1) := rfl

/-- Invariant-carrying correctness of the while loop of
`fastNonDominatedSort`: with enough fuel, the emitted fronts are
non-empty, their members are exactly the not-yet-placed population
members (once each, by id), and the front at offset `j` holds
population members re-ranked to `i + j`. -/
theorem sortLoop_spec (specs : List ObjectiveSpec) (pop : List (Genome π))
    (hnd : (pop.map (fun g => g.id)).Nodup) :
    ∀ (fuel : ℕ) (cnt : String → ℤ) (current : List (Genome π)) (i : ℕ)
      (done : List String),
    (∀ q ∈ pop, q.id ∈ done → ∀ d ∈ dominatorsIn specs pop q, d.id ∈ done) →
    (∀ c ∈ current, ∃ p ∈ pop, c = setRank p i ∧
      ∀ d ∈ dominatorsIn specs pop p, d.id ∈ done) →
    ((current.map (fun g => g.id)).Nodup) →
    (∀ c ∈ current, c.id ∉ done) →
    (∀ q ∈ pop, q.id ∉ done → q.id ∉ current.map (fun g => g.id) →
      cnt q.id = (((dominatorsIn specs pop q).filter
        (fun p => !(done.contains p.id))).length : ℤ) ∧
      ((dominatorsIn specs pop q).filter (fun p => !(done.contains p.id))) ≠ []) →
    (∀ s ∈ done, s ∈ pop.map (fun g => g.id)) →
    done.Nodup →
    pop.length + 1 ≤ fuel + done.length →
    (∀ f ∈ sortLoop specs pop fuel cnt current i, f ≠ []) ∧
    (∀ s, idCount (sortLoop specs pop fuel cnt current i).flatten s =
      ((pop.map (fun g => g.id)).filter (fun t => !(done.contains t))).count s) ∧
    (∀ j, ∀ g ∈ (sortLoop specs pop fuel cnt current i).getD j [],
      ∃ p ∈ pop, g = setRank p (i + j)) := by
  intro fuel
  induction fuel with
  | zero =>
    intro cnt current i done _ _ _ _ _ hdsub hdnd hfuel
    exfalso
    have hsub : done ⊆ pop.map (fun g => g.id) := fun a hs => hdsub a hs
    have hle := (hdnd.subperm hsub).length_le
    rw [List.length_map] at hle
    omega
  | succ fuel ih =>
    intro cnt current i done hdone_dom hcur hcur_nd hdisj hcnt hdsub hdnd hfuel
    by_cases hemp : current = []
    · subst hemp
      rw [sortLoop_succ, if_pos List.isEmpty_nil]
      have hnone : ∀ q ∈ pop, q.id ∈ done := by
        by_contra hcon
        push_neg at hcon
        obtain ⟨q1, hq1, hq1d⟩ := hcon
        have hq1U : q1 ∈ pop.filter (fun q => !(done.contains q.id)) := by
          rw [List.mem_filter]
          refine ⟨hq1, ?_⟩
          simp only [Bool.not_eq_true', contains_false]
          exact hq1d
        have hUne : pop.filter (fun q => !(done.contains q.id)) ≠ [] := by
          intro h
          rw [h] at hq1U
          exact absurd hq1U (List.not_mem_nil q1)
        obtain ⟨q0, hq0, hmax⟩ := exists_undominated specs _ hUne
        rw [List.mem_filter] at hq0
        obtain ⟨hq0p, hq0d⟩ := hq0
        simp only [Bool.not_eq_true', contains_false] at hq0d
        obtain ⟨_, hne⟩ := hcnt q0 hq0p hq0d (by simp)
        obtain ⟨d, hd⟩ := List.exists_mem_of_ne_nil _ hne
        rw [List.mem_filter] at hd
        obtain ⟨hdmem, hdd⟩ := hd
        simp only [Bool.not_eq_true', contains_false] at hdd
        rw [mem_dominatorsIn] at hdmem
        have hdU : d ∈ pop.filter (fun q => !(done.contains q.id)) := by
          rw [List.mem_filter]
          refine ⟨hdmem.1, ?_⟩
          simp only [Bool.not_eq_true', contains_false]
          exact hdd
        have h1 := hdmem.2.2
        rw [hmax d hdU] at h1
        exact Bool.false_ne_true h1
      have hfilt : (pop.map (fun g => g.id)).filter (fun t => !(done.contains t)) = [] := by
        rw [List.filter_eq_nil_iff]
        intro t ht
        obtain ⟨q, hq, rfl⟩ := List.mem_map.mp ht
        simp only [Bool.not_eq_true', contains_false, not_not]
        exact hnone q hq
      refine ⟨?_, ?_, ?_⟩
      · intro f hf
        exact absurd hf (List.not_mem_nil f)
      · intro s
        rw [hfilt]
        rfl
      · intro j g hg
        rw [List.getD_nil] at hg
        exact absurd hg (List.not_mem_nil g)
    · have hinj := List.inj_on_of_nodup_map hnd
      have hcond : ¬ (current.isEmpty = true) := by
        intro h
        exact hemp (List.isEmpty_iff.mp h)
      rw [sortLoop_succ, if_neg hcond]
      obtain ⟨hb1, hb2, hb3⟩ := buildNext_spec specs pop hnd i cnt current done
        hdone_dom hcur hcur_nd hdisj hcnt
      have H1' : ∀ q ∈ pop, q.id ∈ done ++ current.map (fun g => g.id) →
          ∀ d ∈ dominatorsIn specs pop q, d.id ∈ done ++ current.map (fun g => g.id) := by
        intro q hq hqm d hd
        rw [List.mem_append] at hqm
        rcases hqm with h | h
        · exact List.mem_append.mpr (Or.inl (hdone_dom q hq h d hd))
        · rw [List.mem_map] at h
          obtain ⟨c, hc, hcq⟩ := h
          obtain ⟨p, hp, rfl, hpdom⟩ := hcur c hc
          rw [setRank_id] at hcq
          have hpq : p = q := hinj hp hq hcq
          subst hpq
          exact List.mem_append.mpr (Or.inl (hpdom d hd))
      have H2' : ∀ c ∈ (buildNext specs pop i cnt current).2,
          ∃ p ∈ pop, c = setRank p (i + 1) ∧
            ∀ d ∈ dominatorsIn specs pop p, d.id ∈ done ++ current.map (fun g => g.id) := by
        intro c hc
        obtain ⟨q, hq, rfl, _, _, hdom⟩ := (hb1 c).mp hc
        exact ⟨q, hq, rfl, hdom⟩
      have H4' : ∀ c ∈ (buildNext specs pop i cnt current).2,
          c.id ∉ done ++ current.map (fun g => g.id) := by
        intro c hc
        obtain ⟨q, hq, rfl, hqd, hqc, _⟩ := (hb1 c).mp hc
        rw [setRank_id]
        intro hmem
        rcases List.mem_append.mp hmem with h | h
        · exact hqd h
        · exact hqc h
      have H6' : ∀ s ∈ done ++ current.map (fun g => g.id),
          s ∈ pop.map (fun g => g.id) := by
        intro s hs
        rcases List.mem_append.mp hs with h | h
        · exact hdsub s h
        · rw [List.mem_map] at h
          obtain ⟨c, hc, rfl⟩ := h
          obtain ⟨p, hp, rfl, _⟩ := hcur c hc
          rw [setRank_id]
          exact List.mem_map_of_mem _ hp
      have H7' : (done ++ current.map (fun g => g.id)).Nodup := by
        refine List.Nodup.append hdnd hcur_nd ?_
        intro s hs hs'
        rw [List.mem_map] at hs'
        obtain ⟨c, hc, rfl⟩ := hs'
        exact hdisj c hc hs
      have H8' : pop.length + 1 ≤ fuel + (done ++ current.map (fun g => g.id)).length := by
        rw [List.length_append, List.length_map]
        have hpos : 0 < current.length := List.length_pos.mpr hemp
        omega
      obtain ⟨ha', hb', hc'⟩ := ih (buildNext specs pop i cnt current).1
        (buildNext specs pop i cnt current).2 (i + 1)
        (done ++ current.map (fun g => g.id))
        H1' H2' hb2 H4' hb3 H6' H7' H8'
      refine ⟨?_, ?_, ?_⟩
      · intro f hf
        rcases List.mem_cons.mp hf with h | h
        · rw [h]; exact hemp
        · exact ha' f h
      · intro s
        rw [List.flatten_cons, idCount_append, hb' s]
        have h1 : ∀ t ∈ pop.map (fun g => g.id),
            (!(done.contains t)) = (((current.map (fun g => g.id)).contains t) ||
              (!((done ++ current.map (fun g => g.id)).contains t))) := by
          intro t _
          rw [contains_app]
          by_cases hdt : t ∈ done
          · have hA : done.contains t = true := (contains_true done t).mpr hdt
            have hBc : (current.map (fun g => g.id)).contains t = false := by
              rw [contains_false, List.mem_map]
              rintro ⟨c, hc, rfl⟩
              exact hdisj c hc hdt
            rw [hA, hBc]
            rfl
          · have hA : done.contains t = false := (contains_false done t).mpr hdt
            rw [hA]
            cases (current.map (fun g => g.id)).contains t <;> rfl
        have h2 : ∀ t ∈ pop.map (fun g => g.id),
            ¬ ((((current.map (fun g => g.id)).contains t) = true) ∧
              ((!((done ++ current.map (fun g => g.id)).contains t)) = true)) := by
          intro t _ hand
          obtain ⟨hB, hC⟩ := hand
          rw [contains_true] at hB
          simp only [Bool.not_eq_true', contains_false, List.mem_append] at hC
          exact hC (Or.inr hB)
        rw [count_filter_or (pop.map (fun g => g.id)) _ _ _ h1 h2 s]
        have hBcount : idCount current s = ((pop.map (fun g => g.id)).filter
            ((current.map (fun g => g.id)).contains)).count s := by
          have hl : idCount current s = (current.map (fun g => g.id)).count s := rfl
          rw [hl, count_nodup (current.map (fun g => g.id)) hcur_nd s,
            count_nodup _ (hnd.filter _) s]
          by_cases hs : s ∈ current.map (fun g => g.id)
          · rw [if_pos hs, if_pos]
            rw [List.mem_filter]
            refine ⟨?_, (contains_true _ _).mpr hs⟩
            obtain ⟨c, hc, rfl⟩ := List.mem_map.mp hs
            obtain ⟨p, hp, rfl, _⟩ := hcur c hc
            rw [setRank_id]
            exact List.mem_map_of_mem _ hp
          · rw [if_neg hs, if_neg]
            rw [List.mem_filter]
            rintro ⟨_, hcs⟩
            rw [contains_true] at hcs
            exact hs hcs
        omega
      · intro j g hg
        cases j with
        | zero =>
          rw [List.getD_cons_zero] at hg
          obtain ⟨p, hp, rfl, _⟩ := hcur g hg
          exact ⟨p, hp, by rw [Nat.add_zero]⟩
        | succ j =>
          rw [List.getD_cons_succ] at hg
          obtain ⟨p, hp, hgp⟩ := hc' j g hg
          refine ⟨p, hp, ?_⟩
          rw [hgp]
          congr 1
          omega

end SortMainLemmas

section C8

variable {π : Type}

/-- C8: with pairwise-distinct ids and objective vectors matching the
axis count, `fastNonDominatedSort` returns only non-empty fronts whose
members are the input genomes exactly once each (by id, and every
member is an input genome with its rank written); front 0 is exactly
the genomes dominated by no input; the rank slot of every member of
the front at index `j` is `j`; and the empty population yields `[]`. -/
theorem fastNonDominatedSort_spec (specs : List ObjectiveSpec) (pop : List (Genome π))
    (hnd : (pop.map (fun g => g.id)).Nodup)
    ( _hlen : ∀ g ∈ pop, g.objectives.values.length = specs.length) :
    (∀ f ∈ fastNonDominatedSort pop specs, f ≠ []) ∧
    (((fastNonDominatedSort pop specs).flatten.map (fun g => g.id)).Perm
        (pop.map (fun g => g.id)) ∧
      ∀ p ∈ pop, idCount (fastNonDominatedSort pop specs).flatten p.id = 1) ∧
    (∀ g, g ∈ (fastNonDominatedSort pop specs).headD [] ↔
      ∃ p ∈ pop, g = setRank p 0 ∧ ∀ q ∈ pop, dominatesT specs q p = false) ∧
    (∀ j, ∀ g ∈ (fastNonDominatedSort pop specs).getD j [],
      g.rank = some j ∧ ∃ p ∈ pop, g = setRank p j) ∧
    (pop = [] → fastNonDominatedSort pop specs = []) := by
  have hinj := List.inj_on_of_nodup_map hnd
  have hinj' : ∀ p ∈ pop, ∀ p' ∈ pop, p.id = p'.id → p = p' :=
    fun p hp p' hp' h => hinj hp hp' h
  have H1 : ∀ q ∈ pop, q.id ∈ ([] : List String) →
      ∀ d ∈ dominatorsIn specs pop q, d.id ∈ ([] : List String) := by
    intro q _ h
    exact absurd h (List.not_mem_nil q.id)
  have H2 : ∀ c ∈ front0 specs pop, ∃ p ∈ pop, c = setRank p 0 ∧
      ∀ d ∈ dominatorsIn specs pop p, d.id ∈ ([] : List String) := by
    intro c hc
    obtain ⟨p, hp, hn0, rfl⟩ := front0_mem.mp hc
    refine ⟨p, hp, rfl, ?_⟩
    rw [nCount_eq] at hn0
    have hde : dominatorsIn specs pop p = [] := List.length_eq_zero.mp hn0
    intro d hd
    rw [hde] at hd
    exact absurd hd (List.not_mem_nil d)
  have H3 : ((front0 specs pop).map (fun g => g.id)).Nodup := by
    rw [front0_ids]
    exact hnd.sublist ((List.filter_sublist pop).map (fun g => g.id))
  have H4 : ∀ c ∈ front0 specs pop, c.id ∉ ([] : List String) := by
    intro c _
    exact List.not_mem_nil c.id
  have H5 : ∀ q ∈ pop, q.id ∉ ([] : List String) →
      q.id ∉ (front0 specs pop).map (fun g => g.id) →
      initCnt specs pop q.id = (((dominatorsIn specs pop q).filter
        (fun p => !(([] : List String).contains p.id))).length : ℤ) ∧
      ((dominatorsIn specs pop q).filter
        (fun p => !(([] : List String).contains p.id))) ≠ [] := by
    intro q hq _ hqf
    have hfe : ((dominatorsIn specs pop q).filter
        (fun p => !(([] : List String).contains p.id))) = dominatorsIn specs pop q :=
      filter_contains_nil_genome _
    have hne : dominatorsIn specs pop q ≠ [] := by
      intro h
      apply hqf
      rw [front0_ids, List.mem_map]
      refine ⟨q, ?_, rfl⟩
      rw [List.mem_filter]
      refine ⟨hq, ?_⟩
      rw [beq_iff_eq, nCount_eq, h]
      rfl
    constructor
    · rw [hfe, initCnt_eq specs pop hinj' q hq, nCount_eq]
    · rw [hfe]
      exact hne
  have H6 : ∀ s ∈ ([] : List String), s ∈ pop.map (fun g => g.id) := by
    intro s hs
    exact absurd hs (List.not_mem_nil s)
  have H8 : pop.length + 1 ≤ (pop.length + 1) + ([] : List String).length := by
    simp
  obtain ⟨hA, hB, hC⟩ := sortLoop_spec specs pop hnd (pop.length + 1)
    (initCnt specs pop) (front0 specs pop) 0 [] H1 H2 H3 H4 H5 H6 List.nodup_nil H8
  unfold fastNonDominatedSort
  have h5 : pop = [] → sortLoop specs pop (pop.length + 1) (initCnt specs pop)
      (front0 specs pop) 0 = [] := by
    intro h
    subst h
    rfl
  refine ⟨hA, ⟨?_, ?_⟩, ?_, ?_, h5⟩
  · rw [List.perm_iff_count]
    intro a
    have h := hB a
    rw [filter_contains_nil_str] at h
    exact h
  · intro p hp
    have h := hB p.id
    rw [filter_contains_nil_str] at h
    rw [h]
    exact List.count_eq_one_of_mem hnd (List.mem_map_of_mem _ hp)
  · by_cases hpe : pop = []
    · subst hpe
      intro g
      rw [h5 rfl]
      simp
    · have hf0ne : front0 specs pop ≠ [] := by
        obtain ⟨q0, hq0, hmax⟩ := exists_undominated specs pop hpe
        intro h
        have hmem : setRank q0 0 ∈ front0 specs pop := by
          rw [front0_mem]
          refine ⟨q0, hq0, ?_, rfl⟩
          rw [nCount_eq, (dominatorsIn_nil_iff hinj' hq0).mpr hmax]
          rfl
        rw [h] at hmem
        exact absurd hmem (List.not_mem_nil _)
      have hne2 : (front0 specs pop).isEmpty = false := by
        cases hh : (front0 specs pop).isEmpty
        · rfl
        · exact absurd (List.isEmpty_iff.mp hh) hf0ne
      intro g
      rw [sortLoop_succ, if_neg (by rw [hne2]; exact Bool.false_ne_true)]
      rw [List.headD_cons, front0_mem]
      constructor
      · rintro ⟨p, hp, hn0, rfl⟩
        refine ⟨p, hp, rfl, ?_⟩
        rw [nCount_eq] at hn0
        exact (dominatorsIn_nil_iff hinj' hp).mp (List.length_eq_zero.mp hn0)
      · rintro ⟨p, hp, rfl, hall⟩
        refine ⟨p, hp, ?_, rfl⟩
        rw [nCount_eq, (dominatorsIn_nil_iff hinj' hp).mpr hall]
        rfl
  · intro j g hg
    obtain ⟨p, hp, hgp⟩ := hC j g hg
    rw [Nat.zero_add] at hgp
    refine ⟨?_, p, hp, hgp⟩
    rw [hgp]
    rfl

/-- Witness for C8 on the concrete three-genome population over the
single `max` axis: the hypotheses hold and the theorem applies. -/
theorem fastNonDominatedSort_spec_witness :
    ((([gA, gB, gC] : List (Genome Unit)).map (fun g => g.id)).Nodup ∧
      (∀ g ∈ ([gA, gB, gC] : List (Genome Unit)),
        g.objectives.values.length = specsM.length)) ∧
    ((∀ f ∈ fastNonDominatedSort [gA, gB, gC] specsM, f ≠ []) ∧
      (((fastNonDominatedSort [gA, gB, gC] specsM).flatten.map (fun g => g.id)).Perm
          (([gA, gB, gC] : List (Genome Unit)).map (fun g => g.id)) ∧
        ∀ p ∈ ([gA, gB, gC] : List (Genome Unit)),
          idCount (fastNonDominatedSort [gA, gB, gC] specsM).flatten p.id = 1) ∧
      (∀ g, g ∈ (fastNonDominatedSort [gA, gB, gC] specsM).headD [] ↔
        ∃ p ∈ ([gA, gB, gC] : List (Genome Unit)), g = setRank p 0 ∧
          ∀ q ∈ ([gA, gB, gC] : List (Genome Unit)), dominatesT specsM q p = false) ∧
      (∀ j, ∀ g ∈ (fastNonDominatedSort [gA, gB, gC] specsM).getD j [],
        g.rank = some j ∧ ∃ p ∈ ([gA, gB, gC] : List (Genome Unit)), g = setRank p j) ∧
      (([gA, gB, gC] : List (Genome Unit)) = [] →
        fastNonDominatedSort [gA, gB, gC] specsM = [])) :=
  ⟨⟨by decide, by decide⟩,
    fastNonDominatedSort_spec specsM [gA, gB, gC] (by decide) (by decide)⟩

end C8

section SelectLemmas

variable {π : Type}

/-- Writing `crowding` slots does not change the ids of a front. -/
theorem crowdingDistance_snd_ids (front : List (Genome π)) (specs : List ObjectiveSpec) :
    ((crowdingDistance front specs).2).map (fun g => g.id) = front.map (fun g => g.id) := by
  unfold crowdingDistance
  by_cases h0 : front.length = 0
  · rw [if_pos h0]
  · rw [if_neg h0]
    dsimp only
    by_cases h2 : front.length ≤ 2
    · rw [if_pos h2]
      dsimp only
      rw [List.map_map]
      rfl
    · rw [if_neg h2]
      dsimp only
      rw [List.map_map]
      rfl

/-- Writing `crowding` slots does not change the size of a front. -/
theorem crowdingDistance_snd_length (front : List (Genome π)) (specs : List ObjectiveSpec) :
    ((crowdingDistance front specs).2).length = front.length := by
  have h := congrArg List.length (crowdingDistance_snd_ids front specs)
  rwa [List.length_map, List.length_map] at h

/-- The selection walk returns `min T (already selected + total front
size)` genomes: whole fronts fit until the quota binds, and the
partial front is truncated exactly at the quota. -/
theorem selectWalk_length (T : ℕ) :
    ∀ (fronts : List (List (Genome π))) (sel : List (Genome π)),
    sel.length ≤ T →
    (selectWalk T fronts sel).length =
      min T (sel.length + ((fronts.map List.length).sum)) := by
  intro fronts
  induction fronts with
  | nil =>
    intro sel hsel
    simp only [selectWalk, List.map_nil, List.sum_nil, Nat.add_zero]
    omega
  | cons f rest ih =>
    intro sel hsel
    simp only [selectWalk, List.map_cons, List.sum_cons]
    by_cases hfit : sel.length + f.length ≤ T
    · rw [if_pos hfit, ih (sel ++ f) (by rw [List.length_append]; omega)]
      rw [List.length_append]
      omega
    · rw [if_neg hfit, List.length_append, List.length_take, List.length_mergeSort]
      omega

/-- When everything fits, the selection walk returns all fronts in
order. -/
theorem selectWalk_whole (T : ℕ) :
    ∀ (fronts : List (List (Genome π))) (sel : List (Genome π)),
    sel.length + ((fronts.map List.length).sum) ≤ T →
    selectWalk T fronts sel = sel ++ fronts.flatten := by
  intro fronts
  induction fronts with
  | nil =>
    intro sel _
    simp [selectWalk]
  | cons f rest ih =>
    intro sel hfit
    simp only [List.map_cons, List.sum_cons] at hfit
    rw [List.flatten_cons]
    simp only [selectWalk]
    rw [if_pos (by omega), ih (sel ++ f) (by rw [List.length_append]; omega)]
    rw [List.append_assoc]

/-- Shape of the selection walk: some prefix of whole fronts, then the
first non-fitting front sorted by descending crowding and cut at the
remaining quota (when all fronts fit, the cut list is empty). -/
theorem selectWalk_struct (T : ℕ) :
    ∀ (fronts : List (List (Genome π))) (sel : List (Genome π)),
    sel.length ≤ T →
    ∃ k, k ≤ fronts.length ∧
      sel.length + (((fronts.take k).map List.length).sum) ≤ T ∧
      selectWalk T fronts sel = sel ++ (fronts.take k).flatten ++
        ((fronts.getD k []).mergeSort crowdLe).take
          (T - (sel.length + (((fronts.take k).map List.length).sum))) ∧
      (k < fronts.length →
        T < sel.length + (((fronts.take (k + 1)).map List.length).sum)) := by
  intro fronts
  induction fronts with
  | nil =>
    intro sel hsel
    refine ⟨0, Nat.le_refl 0, ?_, ?_, ?_⟩
    · simpa using hsel
    · simp [selectWalk]
    · intro h
      exact absurd h (Nat.lt_irrefl 0)
  | cons f rest ih =>
    intro sel hsel
    by_cases hfit : sel.length + f.length ≤ T
    · obtain ⟨k, hk, hfit', heq, hlast⟩ := ih (sel ++ f)
        (by rw [List.length_append]; omega)
      refine ⟨k + 1, by rw [List.length_cons]; omega, ?_, ?_, ?_⟩
      · simp only [List.take_succ_cons, List.map_cons, List.sum_cons]
        rw [List.length_append] at hfit'
        omega
      · simp only [selectWalk]
        rw [if_pos hfit, heq, List.length_append]
        have harg : sel.length + f.length + (((rest.take k).map List.length).sum) =
            sel.length + (f.length + (((rest.take k).map List.length).sum)) := by
          omega
        rw [harg]
        simp only [List.take_succ_cons, List.flatten_cons, List.getD_cons_succ,
          List.map_cons, List.sum_cons, List.append_assoc]
      · intro hlt
        rw [List.length_cons] at hlt
        simp only [List.take_succ_cons, List.map_cons, List.sum_cons]
        rw [List.length_append] at hlast
        have h2 := hlast (by omega)
        omega
    · refine ⟨0, Nat.zero_le _, by simpa using hsel, ?_, ?_⟩
      · simp only [selectWalk]
        rw [if_neg hfit]
        simp
      · intro _
        simp only [List.take_succ_cons, List.take_zero, List.map_cons, List.map_nil,
          List.sum_cons, List.sum_nil]
        omega

/-- The ids coming out of the sort are a permutation of the input ids
(each input genome is placed exactly once). -/
theorem fastNonDominatedSort_ids_perm (specs : List ObjectiveSpec) (pop : List (Genome π))
    (hnd : (pop.map (fun g => g.id)).Nodup) :
    ((fastNonDominatedSort pop specs).flatten.map (fun g => g.id)).Perm
      (pop.map (fun g => g.id)) := by
  have hinj' : ∀ p ∈ pop, ∀ p' ∈ pop, p.id = p'.id → p = p' :=
    fun p hp p' hp' h => List.inj_on_of_nodup_map hnd hp hp' h
  have H1 : ∀ q ∈ pop, q.id ∈ ([] : List String) →
      ∀ d ∈ dominatorsIn specs pop q, d.id ∈ ([] : List String) := by
    intro q _ h
    exact absurd h (List.not_mem_nil q.id)
  have H2 : ∀ c ∈ front0 specs pop, ∃ p ∈ pop, c = setRank p 0 ∧
      ∀ d ∈ dominatorsIn specs pop p, d.id ∈ ([] : List String) := by
    intro c hc
    obtain ⟨p, hp, hn0, rfl⟩ := front0_mem.mp hc
    refine ⟨p, hp, rfl, ?_⟩
    rw [nCount_eq] at hn0
    have hde : dominatorsIn specs pop p = [] := List.length_eq_zero.mp hn0
    intro d hd
    rw [hde] at hd
    exact absurd hd (List.not_mem_nil d)
  have H3 : ((front0 specs pop).map (fun g => g.id)).Nodup := by
    rw [front0_ids]
    exact hnd.sublist ((List.filter_sublist pop).map (fun g => g.id))
  have H4 : ∀ c ∈ front0 specs pop, c.id ∉ ([] : List String) := by
    intro c _
    exact List.not_mem_nil c.id
  have H5 : ∀ q ∈ pop, q.id ∉ ([] : List String) →
      q.id ∉ (front0 specs pop).map (fun g => g.id) →
      initCnt specs pop q.id = (((dominatorsIn specs pop q).filter
        (fun p => !(([] : List String).contains p.id))).length : ℤ) ∧
      ((dominatorsIn specs pop q).filter
        (fun p => !(([] : List String).contains p.id))) ≠ [] := by
    intro q hq _ hqf
    have hfe : ((dominatorsIn specs pop q).filter
        (fun p => !(([] : List String).contains p.id))) = dominatorsIn specs pop q :=
      filter_contains_nil_genome _
    have hne : dominatorsIn specs pop q ≠ [] := by
      intro h
      apply hqf
      rw [front0_ids, List.mem_map]
      refine ⟨q, ?_, rfl⟩
      rw [List.mem_filter]
      refine ⟨hq, ?_⟩
      rw [beq_iff_eq, nCount_eq, h]
      rfl
    constructor
    · rw [hfe, initCnt_eq specs pop hinj' q hq, nCount_eq]
    · rw [hfe]
      exact hne
  have H6 : ∀ s ∈ ([] : List String), s ∈ pop.map (fun g => g.id) := by
    intro s hs
    exact absurd hs (List.not_mem_nil s)
  have H8 : pop.length + 1 ≤ (pop.length + 1) + ([] : List String).length := by
    simp
  obtain ⟨_, hB, _⟩ := sortLoop_spec specs pop hnd (pop.length + 1)
    (initCnt specs pop) (front0 specs pop) 0 [] H1 H2 H3 H4 H5 H6 List.nodup_nil H8
  unfold fastNonDominatedSort
  rw [List.perm_iff_count]
  intro a
  have h := hB a
  rw [filter_contains_nil_str] at h
  exact h

end SelectLemmas

section C10

variable {π : Type}

/-- C10: with pairwise-distinct ids and matching objective vectors,
`nsga2Select` returns exactly `min targetSize |population|` genomes:
its output is a prefix of whole crowding-annotated fronts in rank
order that fit the quota, followed by the first non-fitting front
sorted by descending crowding and cut at the remaining quota; when
the whole population fits it returns every annotated front in order
(the whole population, by id), and the empty population yields `[]`. -/
theorem nsga2Select_spec (specs : List ObjectiveSpec) (pop : List (Genome π)) (T : ℕ)
    (hnd : (pop.map (fun g => g.id)).Nodup)
    ( _hlen : ∀ g ∈ pop, g.objectives.values.length = specs.length) :
    (nsga2Select pop specs T).length = min T pop.length ∧
    (∃ k, k ≤ ((fastNonDominatedSort pop specs).map
        (fun f => (crowdingDistance f specs).2)).length ∧
      ((((fastNonDominatedSort pop specs).map
        (fun f => (crowdingDistance f specs).2)).take k).map List.length).sum ≤ T ∧
      nsga2Select pop specs T =
        (((fastNonDominatedSort pop specs).map
          (fun f => (crowdingDistance f specs).2)).take k).flatten ++
        ((((fastNonDominatedSort pop specs).map
          (fun f => (crowdingDistance f specs).2)).getD k []).mergeSort crowdLe).take
          (T - ((((fastNonDominatedSort pop specs).map
            (fun f => (crowdingDistance f specs).2)).take k).map List.length).sum) ∧
      (k < ((fastNonDominatedSort pop specs).map
          (fun f => (crowdingDistance f specs).2)).length →
        T < ((((fastNonDominatedSort pop specs).map
          (fun f => (crowdingDistance f specs).2)).take (k + 1)).map List.length).sum)) ∧
    (pop.length ≤ T →
      nsga2Select pop specs T = ((fastNonDominatedSort pop specs).map
        (fun f => (crowdingDistance f specs).2)).flatten ∧
      ((nsga2Select pop specs T).map (fun g => g.id)).Perm (pop.map (fun g => g.id))) ∧
    (pop = [] → nsga2Select pop specs T = []) := by
  have hperm := fastNonDominatedSort_ids_perm specs pop hnd
  have hsum : ((((fastNonDominatedSort pop specs).map
      (fun f => (crowdingDistance f specs).2)).map List.length).sum) = pop.length := by
    have h1 : (((fastNonDominatedSort pop specs).map
        (fun f => (crowdingDistance f specs).2)).map List.length) =
        ((fastNonDominatedSort pop specs).map List.length) := by
      rw [List.map_map]
      apply List.map_congr_left
      intro f _
      exact crowdingDistance_snd_length f specs
    rw [h1, ← List.length_flatten]
    have h2 := hperm.length_eq
    rw [List.length_map, List.length_map] at h2
    exact h2
  have hcperm : ((((fastNonDominatedSort pop specs).map
      (fun f => (crowdingDistance f specs).2)).flatten).map (fun g => g.id)).Perm
      (pop.map (fun g => g.id)) := by
    have hmapeq : ((((fastNonDominatedSort pop specs).map
        (fun f => (crowdingDistance f specs).2)).flatten).map (fun g => g.id)) =
        ((fastNonDominatedSort pop specs).flatten.map (fun g => g.id)) := by
      rw [List.map_flatten, List.map_flatten, List.map_map]
      congr 1
      apply List.map_congr_left
      intro f _
      exact crowdingDistance_snd_ids f specs
    rw [hmapeq]
    exact hperm
  refine ⟨?_, ?_, ?_, ?_⟩
  · show (selectWalk T ((fastNonDominatedSort pop specs).map
      (fun f => (crowdingDistance f specs).2)) []).length = min T pop.length
    rw [selectWalk_length T _ [] (Nat.zero_le T), List.length_nil, Nat.zero_add, hsum]
  · obtain ⟨k, hk, hfit, heq, hlast⟩ := selectWalk_struct T
      ((fastNonDominatedSort pop specs).map (fun f => (crowdingDistance f specs).2)) []
      (Nat.zero_le T)
    simp only [List.length_nil, Nat.zero_add, List.nil_append] at hfit heq hlast
    exact ⟨k, hk, hfit, heq, hlast⟩
  · intro hle
    have hw := selectWalk_whole T ((fastNonDominatedSort pop specs).map
      (fun f => (crowdingDistance f specs).2)) []
      (by rw [List.length_nil, Nat.zero_add, hsum]; exact hle)
    rw [List.nil_append] at hw
    have hw' : nsga2Select pop specs T = ((fastNonDominatedSort pop specs).map
        (fun f => (crowdingDistance f specs).2)).flatten := hw
    constructor
    · exact hw'
    · rw [hw']
      exact hcperm
  · intro h
    subst h
    rfl

/-- Witness for C10 on the concrete three-genome population over the
single `max` axis with target size 2: the hypotheses hold and the
theorem applies. -/
theorem nsga2Select_spec_witness :
    ((([gA, gB, gC] : List (Genome Unit)).map (fun g => g.id)).Nodup ∧
      (∀ g ∈ ([gA, gB, gC] : List (Genome Unit)),
        g.objectives.values.length = specsM.length)) ∧
    ((nsga2Select [gA, gB, gC] specsM 2).length =
        min 2 ([gA, gB, gC] : List (Genome Unit)).length ∧
    (∃ k, k ≤ ((fastNonDominatedSort [gA, gB, gC] specsM).map
        (fun f => (crowdingDistance f specsM).2)).length ∧
      ((((fastNonDominatedSort [gA, gB, gC] specsM).map
        (fun f => (crowdingDistance f specsM).2)).take k).map List.length).sum ≤ 2 ∧
      nsga2Select [gA, gB, gC] specsM 2 =
        (((fastNonDominatedSort [gA, gB, gC] specsM).map
          (fun f => (crowdingDistance f specsM).2)).take k).flatten ++
        ((((fastNonDominatedSort [gA, gB, gC] specsM).map
          (fun f => (crowdingDistance f specsM).2)).getD k []).mergeSort crowdLe).take
          (2 - ((((fastNonDominatedSort [gA, gB, gC] specsM).map
            (fun f => (crowdingDistance f specsM).2)).take k).map List.length).sum) ∧
      (k < ((fastNonDominatedSort [gA, gB, gC] specsM).map
          (fun f => (crowdingDistance f specsM).2)).length →
        2 < ((((fastNonDominatedSort [gA, gB, gC] specsM).map
          (fun f => (crowdingDistance f specsM).2)).take (k + 1)).map List.length).sum)) ∧
    (([gA, gB, gC] : List (Genome Unit)).length ≤ 2 →
      nsga2Select [gA, gB, gC] specsM 2 = ((fastNonDominatedSort [gA, gB, gC] specsM).map
        (fun f => (crowdingDistance f specsM).2)).flatten ∧
      ((nsga2Select [gA, gB, gC] specsM 2).map (fun g => g.id)).Perm
        (([gA, gB, gC] : List (Genome Unit)).map (fun g => g.id))) ∧
    (([gA, gB, gC] : List (Genome Unit)) = [] →
      nsga2Select [gA, gB, gC] specsM 2 = [])) :=
  ⟨⟨by decide, by decide⟩,
    nsga2Select_spec specsM [gA, gB, gC] 2 (by decide) (by decide)⟩

end C10

end MetaLeague
